import Mathlib

/-!
Verification of the contiguous-memory-allocation core
(`ContiguousMemoryAllocation.py`): a shallow embedding of the `Block` and
`Memory` classes and their operations, followed by theorems settling the
specification's claims about them.

Modelling conventions:
* Python `int` addresses are `Int`.
* The Python field `end` is a Lean keyword, so it is named `stop` here.
* `Memory.unique_ids` (a Python `set`) is a `Finset String`.
* Operations that print an error and return without mutating are modelled as
  total functions returning the unchanged state together with a result tag.
* Python `list.sort` (Timsort) is a stable sort; it is modelled with
  `List.insertionSort`, which is also stable.  `sort(key=k, reverse=True)` in
  Python keeps elements with equal keys in their original order, which is the
  behaviour of a stable sort under the flipped comparison
  `fun a b => k b ≤ k a`.
-/

/-- The `Block` class: one contiguous piece of memory, free when `id` is the
sentinel string `"unused"`.  The source stores `_size = end - start + 1` at
construction and never mutates the bounds, so `size` is a derived field here. -/
structure Block where
  start : Int
  stop : Int
  id : String
deriving DecidableEq, Repr, Inhabited

/-- `Block.size`: `end_address - start_address + 1`, as computed in
`Block.__init__`. -/
def Block.size (b : Block) : Int := b.stop - b.start + 1

/-- The `Memory` class state: the list of blocks and the set of process ids
currently allocated. -/
structure Memory where
  memory : List Block
  unique_ids : Finset String
deriving DecidableEq

/-- `Memory.__init__`: one free block spanning `[0, MAX_MEMORY - 1]` and an
empty id set. -/
def Memory.init (MAX_MEMORY : Int) : Memory :=
  ⟨[⟨0, MAX_MEMORY - 1, "unused"⟩], ∅⟩

/-- `_sort_by_starting_address_increasing`: stable sort of the block list by
ascending `start`. -/
def sortByStart (l : List Block) : List Block :=
  l.insertionSort (fun a b => a.start ≤ b.start)

/-- The list comprehension `[item for item in ... if item.id == "unused"]`
over a block list. -/
def freeList (l : List Block) : List Block :=
  l.filter (fun b => b.id == "unused")

/-- The list comprehension `[item for item in ... if item.id != "unused"]`
over a block list. -/
def allocList (l : List Block) : List Block :=
  l.filter (fun b => !(b.id == "unused"))

/-- `_get_free_blocks_for_size_with_index`: `(index, block)` pairs of the free
blocks whose size is at least `size`. -/
def Memory.getFreeBlocksForSizeWithIndex (m : Memory) (size : Int) :
    List (Nat × Block) :=
  m.memory.enum.filter (fun p => p.2.id == "unused" && decide (size ≤ p.2.size))

/-- Outcome of an allocation request: success, or one of the two error
messages printed by the source (`Memory already allocated` /
`Insufficient memory`). -/
inductive AllocResult where
  | ok
  | duplicateProcess
  | insufficientMemory
deriving DecidableEq, Repr

/-- The replacement blocks built once a hole is chosen — these lines are
repeated verbatim in all three `addMemory*` methods: the new allocated block
at the hole's start, plus a leftover hole exactly when `size` is strictly
smaller than the chosen hole. -/
def newBlocksFor (hole : Block) (process : String) (size : Int) : List Block :=
  let new_block : Block := ⟨hole.start, hole.start + size - 1, process⟩
  if size < hole.size then [new_block, ⟨new_block.stop + 1, hole.stop, "unused"⟩]
  else [new_block]

/-- `addMemoryFirstFit`.  The source collects the indices of the sufficient
free blocks and pops the first one; here the `(index, block)` pair list is
used, whose head carries exactly that index together with the block at it.
`pop(i)` followed by `extend(new_blocks)` is `eraseIdx i ++ new_blocks`. -/
def Memory.addMemoryFirstFit (m : Memory) (process : String) (size : Int) :
    Memory × AllocResult :=
  if process ∈ m.unique_ids then (m, .duplicateProcess)
  else
    match (m.getFreeBlocksForSizeWithIndex size).head? with
    | none => (m, .insufficientMemory)
    | some (i, first_free) =>
      (⟨sortByStart (m.memory.eraseIdx i ++ newBlocksFor first_free process size),
        insert process m.unique_ids⟩, .ok)

/-- `addMemoryBestFit`.  The source checks emptiness, stable-sorts the
`(index, block)` pairs by ascending size, and takes the first; sorting the
empty list is empty, so matching on the head of the sorted list is the same
control flow. -/
def Memory.addMemoryBestFit (m : Memory) (process : String) (size : Int) :
    Memory × AllocResult :=
  if process ∈ m.unique_ids then (m, .duplicateProcess)
  else
    match ((m.getFreeBlocksForSizeWithIndex size).insertionSort
        (fun a b => a.2.size ≤ b.2.size)).head? with
    | none => (m, .insufficientMemory)
    | some (best_index, best_hole) =>
      (⟨sortByStart (m.memory.eraseIdx best_index ++ newBlocksFor best_hole process size),
        insert process m.unique_ids⟩, .ok)

/-- `addMemoryWorstFit`: as best fit but with the stable sort by descending
size (`reverse=True`), i.e. the flipped comparison. -/
def Memory.addMemoryWorstFit (m : Memory) (process : String) (size : Int) :
    Memory × AllocResult :=
  if process ∈ m.unique_ids then (m, .duplicateProcess)
  else
    match ((m.getFreeBlocksForSizeWithIndex size).insertionSort
        (fun a b => b.2.size ≤ a.2.size)).head? with
    | none => (m, .insufficientMemory)
    | some (worst_index, worst_hole) =>
      (⟨sortByStart (m.memory.eraseIdx worst_index ++ newBlocksFor worst_hole process size),
        insert process m.unique_ids⟩, .ok)

/-- The block built by `_combine_adjacent_holes` from a run `to_merge`:
`Block(to_merge[0][1].start, to_merge[-1][1].end, "unused")`. -/
def mergeRun (to_merge : List (Nat × Block)) : Block :=
  ⟨(to_merge.headD (0, default)).2.start,
   (to_merge.getLastD (0, default)).2.stop, "unused"⟩

/-- The `while` loop of `_combine_adjacent_holes`.  The Python guard
`to_merge[-1][0] == block[0] - 1` over ℤ is written `last + 1 = block index`
(equivalent over ℤ, and unlike `block.1 - 1` immune to ℕ truncation at 0).
When the guard fails the loop empties `to_merge`, emits the merged block and
retries the same `block` (`continue` without `i += 1`). -/
def combineLoop (free_blocks to_merge : List (Nat × Block))
    (new_blocks : List Block) : List Block :=
  match free_blocks with
  | [] => if to_merge = [] then new_blocks else new_blocks ++ [mergeRun to_merge]
  | block :: rest =>
    if h : to_merge = [] ∨ (to_merge.getLastD (0, default)).1 + 1 = block.1 then
      combineLoop rest (to_merge ++ [block]) new_blocks
    else
      combineLoop (block :: rest) [] (new_blocks ++ [mergeRun to_merge])
termination_by (free_blocks.length, to_merge.length)
decreasing_by
  · apply Prod.Lex.left
    simp
  · apply Prod.Lex.right
    simp only [List.length_nil]
    have : to_merge ≠ [] := by
      intro hnil
      exact h (Or.inl hnil)
    exact List.length_pos.mpr this

/-- `_combine_adjacent_holes`: gather the `(index, block)` pairs of the free
blocks, merge runs of index-adjacent ones, append the merged holes to the
allocated blocks and re-sort by start. -/
def combine_adjacent_holes (mem : List Block) : List Block :=
  let free_blocks := mem.enum.filter (fun p => p.2.id == "unused")
  let new_blocks := combineLoop free_blocks [] []
  let new_memory := mem.filter (fun b => !(b.id == "unused")) ++ new_blocks
  sortByStart new_memory

/-- `release`.  The Python loop `for i, item in enumerate(...): if item.id ==
process: index = i; break` leaves `index = 0` when nothing matches, which is
`(findIdx? ...).getD 0`.  `self.memory[index].id = "unused"` rewrites the id
in place.  `True` signals success, `False` the `does not exist` error. -/
def Memory.release (m : Memory) (process : String) : Memory × Bool :=
  if process ∈ m.unique_ids then
    let index := (m.memory.findIdx? (fun b => b.id == process)).getD 0
    let flipped := m.memory.modify (fun b => { b with id := "unused" }) index
    (⟨combine_adjacent_holes flipped, m.unique_ids.erase process⟩, true)
  else (m, false)

/-- The relocation loop of `compactAllHoles`: each allocated block is copied
to the running `start_address`, keeping its size and id. -/
def relocate (start_address : Int) : List Block → List Block
  | [] => []
  | am :: rest =>
    ⟨start_address, start_address + am.size - 1, am.id⟩ ::
      relocate (start_address + am.size) rest

/-- `compactAllHoles`.  After the relocation loop the running address equals
the sum of the allocated sizes, which is where the single combined hole
starts; it spans the sum of all free sizes.  `unique_ids` is untouched and
the result is not re-sorted. -/
def Memory.compactAllHoles (m : Memory) : Memory :=
  let free_blocks := m.memory.filter (fun b => b.id == "unused")
  if free_blocks.length < 2 then m
  else
    let allocated_memory := m.memory.filter (fun b => !(b.id == "unused"))
    let start_address := (allocated_memory.map Block.size).sum
    ⟨relocate 0 allocated_memory ++
      [⟨start_address, start_address + ((free_blocks.map Block.size).sum) - 1, "unused"⟩],
     m.unique_ids⟩

/-- The three allocation policies offered by the command surface
(`F` / `B` / `W`). -/
inductive Policy where
  | firstFit
  | bestFit
  | worstFit
deriving DecidableEq, Repr

/-- The `RQ` dispatch of `main`: route an allocation request to the policy's
method. -/
def Memory.allocate (m : Memory) (process : String) (size : Int) :
    Policy → Memory × AllocResult
  | .firstFit => m.addMemoryFirstFit process size
  | .bestFit => m.addMemoryBestFit process size
  | .worstFit => m.addMemoryWorstFit process size

/-- One command against the allocator: `RQ`, `RL` or `C`. -/
inductive Op where
  | alloc (process : String) (size : Int) (policy : Policy)
  | rel (process : String)
  | compact
deriving DecidableEq, Repr

/-- Execute one command. -/
def Memory.step (m : Memory) : Op → Memory
  | .alloc p s pol => (m.allocate p s pol).1
  | .rel p => (m.release p).1
  | .compact => m.compactAllHoles

/-- Execute a command sequence against a fresh `Memory MAX`. -/
def Memory.run (MAX : Int) (ops : List Op) : Memory :=
  ops.foldl Memory.step (Memory.init MAX)

/-! ### Specification-side notions -/

/-- `coversFrom lo l hi`: the blocks of `l`, in order, tile the address
interval `[lo, hi]` exactly — each block starts where the previous one
stopped plus one, has positive size, and the last stops at `hi`.  This is the
spec's "sorted, gapless, non-overlapping, spanning" invariant bundle. -/
def coversFrom (lo : Int) : List Block → Int → Prop
  | [], hi => lo = hi + 1
  | b :: rest, hi => b.start = lo ∧ lo ≤ b.stop ∧ coversFrom (b.stop + 1) rest hi

instance decCoversFrom : (l : List Block) → (lo hi : Int) →
    Decidable (coversFrom lo l hi)
  | [], lo, hi => inferInstanceAs (Decidable (lo = hi + 1))
  | b :: rest, lo, hi =>
    haveI : Decidable (coversFrom (b.stop + 1) rest hi) :=
      decCoversFrom rest (b.stop + 1) hi
    inferInstanceAs
      (Decidable (b.start = lo ∧ lo ≤ b.stop ∧ coversFrom (b.stop + 1) rest hi))

/-- Two neighbouring blocks are not both free (spec invariant 5). -/
def notBothFree (a b : Block) : Prop := ¬(a.id = "unused" ∧ b.id = "unused")

instance decNotBothFree (a b : Block) : Decidable (notBothFree a b) :=
  inferInstanceAs (Decidable ¬(a.id = "unused" ∧ b.id = "unused"))

instance decChainNotBothFree : (l : List Block) →
    Decidable (List.Chain' notBothFree l)
  | [] => .isTrue List.chain'_nil
  | [b] => .isTrue (List.chain'_singleton b)
  | a :: b :: rest =>
    haveI : Decidable (List.Chain' notBothFree (b :: rest)) :=
      decChainNotBothFree (b :: rest)
    decidable_of_iff (notBothFree a b ∧ List.Chain' notBothFree (b :: rest))
      List.chain'_cons.symm

/-- The owners of the allocated blocks, in list order. -/
def owners (l : List Block) : List String := (allocList l).map Block.id

/-- Total size of the free blocks. -/
def freeSize (l : List Block) : Int := ((freeList l).map Block.size).sum

/-- Total size of the allocated blocks. -/
def allocSize (l : List Block) : Int := ((allocList l).map Block.size).sum

/-- Total size of all blocks. -/
def totalSize (l : List Block) : Int := (l.map Block.size).sum

/-- A valid `Memory` over a space of size `MAX`: the blocks tile
`[0, MAX - 1]`, no two adjacent blocks are free, no owner repeats, and
`unique_ids` is exactly the owner set. -/
def Memory.Valid (MAX : Int) (m : Memory) : Prop :=
  coversFrom 0 m.memory (MAX - 1) ∧
  List.Chain' notBothFree m.memory ∧
  (owners m.memory).Nodup ∧
  m.unique_ids = (owners m.memory).toFinset

instance decValid (MAX : Int) (m : Memory) : Decidable (m.Valid MAX) :=
  inferInstanceAs (Decidable (coversFrom 0 m.memory (MAX - 1) ∧
    List.Chain' notBothFree m.memory ∧
    (owners m.memory).Nodup ∧
    m.unique_ids = (owners m.memory).toFinset))

/-- Modelled from the spec (§4.2): one left-to-right pass replacing every
maximal run of address-adjacent free blocks by a single free block spanning
from the first run member's `start` to the last run member's `stop`.  Used as
the reference point the code's `_combine_adjacent_holes` is compared with. -/
def coalesce : List Block → List Block
  | [] => []
  | [b] => [b]
  | a :: b :: rest =>
    if a.id = "unused" ∧ b.id = "unused" then
      coalesce (⟨a.start, b.stop, "unused"⟩ :: rest)
    else a :: coalesce (b :: rest)
termination_by l => l.length

/-- The merged free runs of a block list, in order, dropping the allocated
blocks: the intermediate notion connecting `combineLoop` with `coalesce`. -/
def freeRuns : List Block → List Block
  | [] => []
  | [a] => if a.id = "unused" then [a] else []
  | a :: b :: rest =>
    if a.id = "unused" then
      if b.id = "unused" then freeRuns (⟨a.start, b.stop, "unused"⟩ :: rest)
      else a :: freeRuns rest
    else freeRuns (b :: rest)
termination_by l => l.length

/-! ### Basic facts about `coversFrom` -/

/-- The strict start order on blocks. -/
def startLt (a b : Block) : Prop := a.start < b.start

instance : IsAntisymm Block startLt :=
  ⟨fun _ _ h h' => absurd h' (lt_asymm h)⟩

theorem coversFrom_le (lo : Int) (l : List Block) (hi : Int)
    (h : coversFrom lo l hi) : lo ≤ hi + 1 := by
  induction l generalizing lo with
  | nil => exact le_of_eq h
  | cons b rest ih =>
    obtain ⟨-, hpos, hrest⟩ := h
    have := ih _ hrest
    omega

theorem coversFrom_append (lo mid : Int) (l₁ l₂ : List Block) (hi : Int)
    (h₁ : coversFrom lo l₁ mid) (h₂ : coversFrom (mid + 1) l₂ hi) :
    coversFrom lo (l₁ ++ l₂) hi := by
  induction l₁ generalizing lo with
  | nil =>
    have hl : lo = mid + 1 := h₁
    simpa [hl] using h₂
  | cons b rest ih =>
    obtain ⟨hs, hpos, hrest⟩ := h₁
    exact ⟨hs, hpos, ih _ hrest⟩

theorem coversFrom_append_split (lo : Int) (l₁ l₂ : List Block) (hi : Int)
    (h : coversFrom lo (l₁ ++ l₂) hi) :
    ∃ mid, coversFrom lo l₁ mid ∧ coversFrom (mid + 1) l₂ hi := by
  induction l₁ generalizing lo with
  | nil =>
    exact ⟨lo - 1, by simp [coversFrom], by simpa using h⟩
  | cons b rest ih =>
    obtain ⟨hs, hpos, hrest⟩ := h
    obtain ⟨mid, hm₁, hm₂⟩ := ih _ hrest
    exact ⟨mid, ⟨hs, hpos, hm₁⟩, hm₂⟩

theorem coversFrom_mem (lo : Int) (l : List Block) (hi : Int)
    (h : coversFrom lo l hi) {b : Block} (hb : b ∈ l) :
    lo ≤ b.start ∧ b.start ≤ b.stop ∧ b.stop ≤ hi := by
  induction l generalizing lo with
  | nil => cases hb
  | cons c rest ih =>
    obtain ⟨hs, hpos, hrest⟩ := h
    rcases List.mem_cons.mp hb with rfl | hb
    · have := coversFrom_le _ _ _ hrest
      omega
    · have h1 := ih _ hrest hb
      omega

theorem coversFrom_pairwise (lo : Int) (l : List Block) (hi : Int)
    (h : coversFrom lo l hi) : l.Pairwise startLt := by
  induction l generalizing lo with
  | nil => exact List.Pairwise.nil
  | cons b rest ih =>
    obtain ⟨hs, hpos, hrest⟩ := h
    refine List.Pairwise.cons (fun c hc => ?_) (ih _ hrest)
    have := (coversFrom_mem _ _ _ hrest hc).1
    show b.start < c.start
    omega

theorem coversFrom_totalSize (lo : Int) (l : List Block) (hi : Int)
    (h : coversFrom lo l hi) : totalSize l = hi + 1 - lo := by
  induction l generalizing lo with
  | nil =>
    have hl : lo = hi + 1 := h
    simp [totalSize, hl]
  | cons b rest ih =>
    obtain ⟨hs, hpos, hrest⟩ := h
    have := ih _ hrest
    simp only [totalSize, List.map_cons, List.sum_cons] at *
    simp [Block.size]
    omega

/-! ### `sortByStart` is determined by sortedness plus permutation -/

instance : IsTotal Block (fun a b => a.start ≤ b.start) :=
  ⟨fun a b => le_total a.start b.start⟩

instance : IsTrans Block (fun a b => a.start ≤ b.start) :=
  ⟨fun _ _ _ hab hbc => le_trans hab hbc⟩

instance : IsTotal (Nat × Block) (fun a b => a.2.size ≤ b.2.size) :=
  ⟨fun a b => le_total a.2.size b.2.size⟩

instance : IsTrans (Nat × Block) (fun a b => a.2.size ≤ b.2.size) :=
  ⟨fun _ _ _ hab hbc => le_trans hab hbc⟩

instance : IsTotal (Nat × Block) (fun a b => b.2.size ≤ a.2.size) :=
  ⟨fun a b => (le_total b.2.size a.2.size)⟩

instance : IsTrans (Nat × Block) (fun a b => b.2.size ≤ a.2.size) :=
  ⟨fun _ _ _ hab hbc => le_trans hbc hab⟩

theorem sortByStart_perm (l : List Block) : (sortByStart l).Perm l :=
  List.perm_insertionSort _ l

theorem sortByStart_sorted (l : List Block) :
    (sortByStart l).Pairwise (fun a b => a.start ≤ b.start) :=
  List.sorted_insertionSort (fun a b : Block => a.start ≤ b.start) l

theorem pairwise_startLt_of_le (l : List Block)
    (h₁ : l.Pairwise (fun a b => a.start ≤ b.start))
    (h₂ : (l.map Block.start).Nodup) : l.Pairwise startLt := by
  have h₃ : l.Pairwise (fun a b => a.start ≠ b.start) := List.pairwise_map.mp h₂
  exact (h₁.and h₃).imp (fun c => lt_of_le_of_ne c.1 c.2)

/-- If `t` is strictly sorted by start and a permutation of `l`, then sorting
`l` by start yields exactly `t`. -/
theorem sortByStart_eq_of (l t : List Block) (hperm : t.Perm l)
    (ht : t.Pairwise startLt) : sortByStart l = t := by
  have hp : (sortByStart l).Perm t := (sortByStart_perm l).trans hperm.symm
  have hnodup : ((sortByStart l).map Block.start).Nodup := by
    have hmt : List.Pairwise (fun a b : Int => a ≠ b) (t.map Block.start) :=
      List.pairwise_map.mpr (ht.imp (fun h => ne_of_lt h))
    exact (hp.map Block.start).nodup_iff.mpr hmt
  have hsorted : (sortByStart l).Pairwise startLt :=
    pairwise_startLt_of_le _ (sortByStart_sorted l) hnodup
  exact List.eq_of_perm_of_sorted hp hsorted ht

/-! ### Unfolding lemmas for the filters, `coalesce` and `freeRuns` -/

theorem allocList_cons (b : Block) (l : List Block) :
    allocList (b :: l) =
      if b.id = "unused" then allocList l else b :: allocList l := by
  by_cases h : b.id = "unused" <;> simp [allocList, List.filter_cons, h]

theorem freeList_cons (b : Block) (l : List Block) :
    freeList (b :: l) =
      if b.id = "unused" then b :: freeList l else freeList l := by
  by_cases h : b.id = "unused" <;> simp [freeList, List.filter_cons, h]

theorem coalesce_merge (a b : Block) (rest : List Block)
    (ha : a.id = "unused") (hb : b.id = "unused") :
    coalesce (a :: b :: rest) = coalesce (⟨a.start, b.stop, "unused"⟩ :: rest) := by
  rw [coalesce]
  simp [ha, hb]

theorem coalesce_skip (a b : Block) (rest : List Block)
    (h : ¬(a.id = "unused" ∧ b.id = "unused")) :
    coalesce (a :: b :: rest) = a :: coalesce (b :: rest) := by
  rw [coalesce]
  simp [h]

theorem freeRuns_merge (a b : Block) (rest : List Block)
    (ha : a.id = "unused") (hb : b.id = "unused") :
    freeRuns (a :: b :: rest) = freeRuns (⟨a.start, b.stop, "unused"⟩ :: rest) := by
  rw [freeRuns]
  simp [ha, hb]

theorem freeRuns_free_alloc (a b : Block) (rest : List Block)
    (ha : a.id = "unused") (hb : ¬b.id = "unused") :
    freeRuns (a :: b :: rest) = a :: freeRuns rest := by
  rw [freeRuns]
  simp [ha, hb]

theorem freeRuns_alloc_cons (a b : Block) (rest : List Block)
    (ha : ¬a.id = "unused") :
    freeRuns (a :: b :: rest) = freeRuns (b :: rest) := by
  rw [freeRuns]
  simp [ha]

theorem freeRuns_cons_alloc (b : Block) (rest : List Block)
    (hb : ¬b.id = "unused") : freeRuns (b :: rest) = freeRuns rest := by
  cases rest with
  | nil => simp [freeRuns, hb]
  | cons c r => exact freeRuns_alloc_cons b c r hb

/-! ### `coalesce` preserves coverage, produces no adjacent holes, and keeps
the allocated blocks -/

theorem coalesce_covers (l : List Block) :
    ∀ lo hi, coversFrom lo l hi → coversFrom lo (coalesce l) hi := by
  induction l using coalesce.induct with
  | case1 => intro lo hi h; simpa [coalesce] using h
  | case2 b => intro lo hi h; simpa [coalesce] using h
  | case3 a b rest hc ih =>
    intro lo hi h
    obtain ⟨hs, hpos, hbs, hbpos, hrest⟩ := h
    rw [coalesce_merge a b rest hc.1 hc.2]
    exact ih lo hi ⟨hs, by show lo ≤ b.stop; omega, hrest⟩
  | case4 a b rest hc ih =>
    intro lo hi h
    obtain ⟨hs, hpos, hrest⟩ := h
    rw [coalesce_skip a b rest hc]
    exact ⟨hs, hpos, ih _ hi hrest⟩

theorem coalesce_headIds (l : List Block) :
    (coalesce l).head?.map Block.id = l.head?.map Block.id ∧
    (coalesce l).head?.map Block.start = l.head?.map Block.start := by
  induction l using coalesce.induct with
  | case1 => simp [coalesce]
  | case2 b => simp [coalesce]
  | case3 a b rest hc ih =>
    rw [coalesce_merge a b rest hc.1 hc.2]
    obtain ⟨h1, h2⟩ := ih
    refine ⟨?_, ?_⟩
    · rw [h1]; simp [hc.1]
    · rw [h2]; simp
  | case4 a b rest hc ih =>
    rw [coalesce_skip a b rest hc]
    simp

theorem coalesce_chain' (l : List Block) :
    List.Chain' notBothFree (coalesce l) := by
  induction l using coalesce.induct with
  | case1 => simp [coalesce]
  | case2 b => simp [coalesce]
  | case3 a b rest hc ih =>
    rw [coalesce_merge a b rest hc.1 hc.2]
    exact ih
  | case4 a b rest hc ih =>
    rw [coalesce_skip a b rest hc]
    refine List.chain'_cons'.mpr ⟨?_, ih⟩
    intro y hy
    have h1 := (coalesce_headIds (b :: rest)).1
    rw [Option.mem_def] at hy
    rw [hy] at h1
    simp only [Option.map_some', List.head?_cons] at h1
    have hyid : y.id = b.id := by injection h1
    intro hcontra
    exact hc ⟨hcontra.1, hyid ▸ hcontra.2⟩

theorem coalesce_allocList (l : List Block) :
    allocList (coalesce l) = allocList l := by
  induction l using coalesce.induct with
  | case1 => simp [coalesce]
  | case2 b => simp [coalesce]
  | case3 a b rest hc ih =>
    rw [coalesce_merge a b rest hc.1 hc.2, ih,
      allocList_cons a, allocList_cons b, allocList_cons]
    simp [hc.1, hc.2]
  | case4 a b rest hc ih =>
    rw [coalesce_skip a b rest hc, allocList_cons a, allocList_cons a]
    by_cases ha : a.id = "unused" <;> simp [ha, ih]

theorem coalesce_perm (l : List Block) :
    (coalesce l).Perm (allocList l ++ freeRuns l) := by
  induction l using coalesce.induct with
  | case1 => simp [coalesce, allocList, freeRuns]
  | case2 b =>
    by_cases hb : b.id = "unused" <;>
      simp [coalesce, allocList, freeRuns, List.filter_cons, hb]
  | case3 a b rest hc ih =>
    rw [coalesce_merge a b rest hc.1 hc.2, freeRuns_merge a b rest hc.1 hc.2,
      allocList_cons a, allocList_cons b]
    simp only [hc.1, hc.2, if_pos]
    have : allocList rest = allocList (⟨a.start, b.stop, "unused"⟩ :: rest) := by
      rw [allocList_cons]; simp
    rw [this]
    exact ih
  | case4 a b rest hc ih =>
    rw [coalesce_skip a b rest hc]
    by_cases ha : a.id = "unused"
    · have hb : ¬b.id = "unused" := fun hb => hc ⟨ha, hb⟩
      rw [freeRuns_free_alloc a b rest ha hb, allocList_cons a, if_pos ha]
      have h1 : freeRuns (b :: rest) = freeRuns rest := freeRuns_cons_alloc b rest hb
      refine (ih.cons a).trans ?_
      rw [show freeRuns rest = freeRuns (b :: rest) from h1.symm]
      exact List.perm_middle.symm
    · rw [freeRuns_alloc_cons a b rest ha, allocList_cons a, if_neg ha]
      simpa using ih.cons a

/-! ### The `while` loop of `_combine_adjacent_holes` computes `freeRuns` -/

/-- The `(index, block)` pairs of the free blocks, indexing from `k`. -/
def freeEnumFrom (k : Nat) (l : List Block) : List (Nat × Block) :=
  (l.enumFrom k).filter (fun p => p.2.id == "unused")

theorem combine_adjacent_holes_eq (mem : List Block) :
    combine_adjacent_holes mem =
      sortByStart (allocList mem ++ combineLoop (freeEnumFrom 0 mem) [] []) := rfl

theorem freeEnumFrom_cons (k : Nat) (a : Block) (l : List Block) :
    freeEnumFrom k (a :: l) =
      if a.id = "unused" then (k, a) :: freeEnumFrom (k + 1) l
      else freeEnumFrom (k + 1) l := by
  by_cases ha : a.id = "unused" <;>
    simp [freeEnumFrom, List.enumFrom_cons, List.filter_cons, ha]

theorem freeEnumFrom_lower (k : Nat) (l : List Block) :
    ∀ p ∈ freeEnumFrom k l, k ≤ p.1 := by
  induction l generalizing k with
  | nil => intro p hp; simp [freeEnumFrom] at hp
  | cons a rest ih =>
    intro p hp
    rw [freeEnumFrom_cons] at hp
    by_cases ha : a.id = "unused"
    · rw [if_pos ha] at hp
      rcases List.mem_cons.mp hp with rfl | hp
      · exact le_refl k
      · exact le_trans (Nat.le_succ k) (ih (k + 1) p hp)
    · rw [if_neg ha] at hp
      exact le_trans (Nat.le_succ k) (ih (k + 1) p hp)

theorem combineLoop_nil_empty (nb : List Block) :
    combineLoop [] [] nb = nb := by
  rw [combineLoop]
  simp

theorem combineLoop_nil_pending (tm : List (Nat × Block)) (nb : List Block)
    (h : tm ≠ []) : combineLoop [] tm nb = nb ++ [mergeRun tm] := by
  rw [combineLoop]
  simp [h]

theorem combineLoop_cons_extend (block : Nat × Block)
    (rest tm : List (Nat × Block)) (nb : List Block)
    (h : tm = [] ∨ (tm.getLastD (0, default)).1 + 1 = block.1) :
    combineLoop (block :: rest) tm nb = combineLoop rest (tm ++ [block]) nb := by
  rw [combineLoop, dif_pos h]

theorem combineLoop_cons_flush (block : Nat × Block)
    (rest tm : List (Nat × Block)) (nb : List Block)
    (h : ¬(tm = [] ∨ (tm.getLastD (0, default)).1 + 1 = block.1)) :
    combineLoop (block :: rest) tm nb =
      combineLoop (block :: rest) [] (nb ++ [mergeRun tm]) := by
  rw [combineLoop, dif_neg h]

theorem combineLoop_factor (free_blocks to_merge : List (Nat × Block))
    (new_blocks : List Block) :
    ∀ nb₀, combineLoop free_blocks to_merge (nb₀ ++ new_blocks) =
      nb₀ ++ combineLoop free_blocks to_merge new_blocks := by
  induction free_blocks, to_merge, new_blocks using combineLoop.induct with
  | case1 nb =>
    intro nb₀
    rw [combineLoop_nil_empty, combineLoop_nil_empty]
  | case2 tm nb htm =>
    intro nb₀
    rw [combineLoop_nil_pending tm _ htm, combineLoop_nil_pending tm nb htm,
      List.append_assoc]
  | case3 tm nb block rest hg ih =>
    intro nb₀
    rw [combineLoop_cons_extend block rest tm _ hg,
      combineLoop_cons_extend block rest tm nb hg]
    exact ih nb₀
  | case4 tm nb block rest hg ih =>
    intro nb₀
    rw [combineLoop_cons_flush block rest tm _ hg,
      combineLoop_cons_flush block rest tm nb hg, List.append_assoc]
    exact ih nb₀

theorem headD_append_ne_nil {α : Type} (tm l : List α) (d : α) (h : tm ≠ []) :
    (tm ++ l).headD d = tm.headD d := by
  cases tm with
  | nil => exact absurd rfl h
  | cons x xs => rfl

/-- `combineLoop` only consults the pending run through its first block's
start, its last index and its last block's stop, so the run may be collapsed
to a single summary pair. -/
theorem combineLoop_collapse (free_blocks : List (Nat × Block)) :
    ∀ (tm : List (Nat × Block)) (nb : List Block), tm ≠ [] →
      combineLoop free_blocks tm nb =
        combineLoop free_blocks
          [((tm.getLastD (0, default)).1,
            ⟨(tm.headD (0, default)).2.start,
             (tm.getLastD (0, default)).2.stop, "unused"⟩)] nb := by
  induction free_blocks with
  | nil =>
    intro tm nb htm
    rw [combineLoop_nil_pending tm nb htm,
      combineLoop_nil_pending _ nb (by simp)]
    rfl
  | cons block rest ih =>
    intro tm nb htm
    by_cases hg : (tm.getLastD (0, default)).1 + 1 = block.1
    · rw [combineLoop_cons_extend block rest tm nb (Or.inr hg),
        combineLoop_cons_extend block rest _ nb (Or.inr (by simpa using hg))]
      have h1 := ih (tm ++ [block]) nb (by simp)
      have h2 := ih ([((tm.getLastD (0, default)).1,
            (⟨(tm.headD (0, default)).2.start,
             (tm.getLastD (0, default)).2.stop, "unused"⟩ : Block))] ++ [block])
          nb (by simp)
      rw [h1, h2, List.getLastD_concat, List.getLastD_concat,
        headD_append_ne_nil tm [block] _ htm]
      rfl
    · have hg₁ : ¬(tm = [] ∨ (tm.getLastD (0, default)).1 + 1 = block.1) := by
        intro hc
        rcases hc with hc | hc
        · exact htm hc
        · exact hg hc
      have hg₂ : ¬(([((tm.getLastD (0, default)).1,
            ⟨(tm.headD (0, default)).2.start,
             (tm.getLastD (0, default)).2.stop,
             "unused"⟩)] : List (Nat × Block)) = [] ∨
          (([((tm.getLastD (0, default)).1,
            ⟨(tm.headD (0, default)).2.start,
             (tm.getLastD (0, default)).2.stop,
             "unused"⟩)] : List (Nat × Block)).getLastD (0, default)).1 + 1 =
            block.1) := by
        intro hc
        rcases hc with hc | hc
        · exact absurd hc (by simp)
        · exact hg (by simpa using hc)
      rw [combineLoop_cons_flush block rest tm nb hg₁,
        combineLoop_cons_flush block rest _ nb hg₂]
      rfl

theorem block_eta_free (b : Block) (hb : b.id = "unused") :
    (⟨b.start, b.stop, "unused"⟩ : Block) = b := by
  cases b with
  | mk s e i => rw [show i = "unused" from hb]

theorem combineLoop_freeEnum (l : List Block) :
    ∀ k, combineLoop (freeEnumFrom k l) [] [] = freeRuns l := by
  induction l using freeRuns.induct with
  | case1 =>
    intro k
    rw [show freeEnumFrom k [] = [] from by simp [freeEnumFrom],
      combineLoop_nil_empty, freeRuns]
  | case2 b hb =>
    intro k
    rw [show freeEnumFrom k [b] = [(k, b)] from by
        simp [freeEnumFrom, List.enumFrom_cons, List.filter_cons, hb]]
    rw [combineLoop_cons_extend (k, b) [] [] [] (Or.inl rfl),
      combineLoop_nil_pending _ _ (by simp), freeRuns]
    simp [mergeRun, hb, block_eta_free b hb]
  | case3 b hb =>
    intro k
    rw [show freeEnumFrom k [b] = [] from by
        simp [freeEnumFrom, List.enumFrom_cons, List.filter_cons, hb]]
    rw [combineLoop_nil_empty, freeRuns]
    simp [hb]
  | case4 a b rest ha hb ih =>
    intro k
    have e1 : freeEnumFrom k (a :: b :: rest) =
        (k, a) :: (k + 1, b) :: freeEnumFrom (k + 2) rest := by
      rw [freeEnumFrom_cons, if_pos ha, freeEnumFrom_cons, if_pos hb]
    have e2 : freeEnumFrom (k + 1) ((⟨a.start, b.stop, "unused"⟩ : Block) :: rest) =
        (k + 1, (⟨a.start, b.stop, "unused"⟩ : Block)) :: freeEnumFrom (k + 2) rest := by
      rw [freeEnumFrom_cons]
      simp
    rw [freeRuns_merge a b rest ha hb, ← ih (k + 1), e2, e1]
    rw [combineLoop_cons_extend (k, a) ((k + 1, b) :: freeEnumFrom (k + 2) rest)
        [] [] (Or.inl rfl)]
    rw [combineLoop_cons_extend (k + 1, b) (freeEnumFrom (k + 2) rest)
        ([] ++ [(k, a)]) [] (Or.inr (by simp))]
    rw [combineLoop_cons_extend (k + 1, (⟨a.start, b.stop, "unused"⟩ : Block))
        (freeEnumFrom (k + 2) rest) [] [] (Or.inl rfl)]
    rw [combineLoop_collapse (freeEnumFrom (k + 2) rest)
        (([] ++ [(k, a)]) ++ [(k + 1, b)]) [] (by simp)]
    rfl
  | case5 a b rest ha hb ih =>
    intro k
    have e1 : freeEnumFrom k (a :: b :: rest) =
        (k, a) :: freeEnumFrom (k + 2) rest := by
      rw [freeEnumFrom_cons, if_pos ha, freeEnumFrom_cons, if_neg hb]
    rw [freeRuns_free_alloc a b rest ha hb, e1]
    rw [combineLoop_cons_extend (k, a) (freeEnumFrom (k + 2) rest) [] []
        (Or.inl rfl)]
    cases hF : freeEnumFrom (k + 2) rest with
    | nil =>
      rw [combineLoop_nil_pending _ _ (by simp)]
      have hr : freeRuns rest = [] := by
        have h0 := ih (k + 2)
        rw [hF, combineLoop_nil_empty] at h0
        exact h0.symm
      rw [hr]
      simp [mergeRun, block_eta_free a ha]
    | cons p F' =>
      have hp : k + 2 ≤ p.1 :=
        freeEnumFrom_lower (k + 2) rest p (by rw [hF]; exact List.mem_cons_self p F')
      have hguard : ¬((([] ++ [(k, a)]) : List (Nat × Block)) = [] ∨
          ((([] ++ [(k, a)]) : List (Nat × Block)).getLastD (0, default)).1 + 1 = p.1) := by
        intro hc
        rcases hc with hc | hc
        · simp at hc
        · simp at hc
          omega
      rw [combineLoop_cons_flush p F' ([] ++ [(k, a)]) [] hguard]
      have hstep : combineLoop (p :: F') [] ([] ++ [mergeRun ([] ++ [(k, a)])]) =
          [mergeRun [(k, a)]] ++ combineLoop (p :: F') [] [] := by
        have h0 := combineLoop_factor (p :: F') [] [] [mergeRun [(k, a)]]
        simpa using h0
      rw [hstep, ← hF, ih (k + 2)]
      simp [mergeRun, block_eta_free a ha]
  | case6 a b rest ha ih =>
    intro k
    have e1 : freeEnumFrom k (a :: b :: rest) = freeEnumFrom (k + 1) (b :: rest) := by
      rw [freeEnumFrom_cons, if_neg ha]
    rw [freeRuns_alloc_cons a b rest ha, e1, ih (k + 1)]

/-- On any exact tiling of an interval, `_combine_adjacent_holes` computes
precisely the one-pass coalescing of maximal runs of adjacent holes. -/
theorem combine_adjacent_holes_eq_coalesce (l : List Block) (lo hi : Int)
    (h : coversFrom lo l hi) : combine_adjacent_holes l = coalesce l := by
  rw [combine_adjacent_holes_eq, combineLoop_freeEnum l 0]
  exact sortByStart_eq_of _ _ (coalesce_perm l)
    (coversFrom_pairwise lo _ hi (coalesce_covers l lo hi h))

/-! ### Facts about allocation candidates and the post-allocation layout -/

theorem mem_getFreeBlocks (m : Memory) (size : Int) (i : Nat) (R : Block)
    (h : (i, R) ∈ m.getFreeBlocksForSizeWithIndex size) :
    m.memory[i]? = some R ∧ R.id = "unused" ∧ size ≤ R.size := by
  unfold Memory.getFreeBlocksForSizeWithIndex at h
  have h1 := List.mem_filter.mp h
  refine ⟨List.mk_mem_enum_iff_getElem?.mp h1.1, ?_, ?_⟩
  · have := h1.2
    simp at this
    exact this.1
  · have := h1.2
    simp at this
    exact this.2

theorem memory_split_at (l : List Block) (i : Nat) (R : Block)
    (h : l[i]? = some R) : l = l.take i ++ R :: l.drop (i + 1) := by
  obtain ⟨hlt, hget⟩ := List.getElem?_eq_some_iff.mp h
  conv_lhs => rw [← List.take_append_drop i l]
  rw [List.drop_eq_getElem_cons hlt, hget]

theorem take_length_at (l : List Block) (i : Nat) (R : Block)
    (h : l[i]? = some R) : (l.take i).length = i := by
  obtain ⟨hlt, -⟩ := List.getElem?_eq_some_iff.mp h
  simp [List.length_take]
  omega

theorem eraseIdx_middle (l1 l2 : List Block) (R : Block) :
    (l1 ++ R :: l2).eraseIdx l1.length = l1 ++ l2 := by
  induction l1 with
  | nil => simp
  | cons x xs ih => simpa [List.eraseIdx_cons_succ] using ih

theorem eraseIdx_eq_take_drop (l : List Block) :
    ∀ i, l.eraseIdx i = l.take i ++ l.drop (i + 1) := by
  induction l with
  | nil => intro i; simp
  | cons x xs ih =>
    intro i
    cases i with
    | zero => simp
    | succ n => simp [List.eraseIdx_cons_succ, ih n]

theorem newBlocksFor_covers (R : Block) (process : String) (size : Int)
    (hs : 0 < size) (hsz : size ≤ R.size) :
    coversFrom R.start (newBlocksFor R process size) R.stop := by
  unfold newBlocksFor
  by_cases hlt : size < R.size
  · rw [if_pos hlt]
    unfold Block.size at hlt
    refine ⟨rfl, by show R.start ≤ R.start + size - 1; omega, rfl, ?_, ?_⟩
    · show R.start + size - 1 + 1 ≤ R.stop
      omega
    · show R.stop + 1 = R.stop + 1
      rfl
  · rw [if_neg hlt]
    unfold Block.size at hlt hsz
    refine ⟨rfl, by show R.start ≤ R.start + size - 1; omega, ?_⟩
    show R.start + size - 1 + 1 = R.stop + 1
    omega

/-- Replacing the block at position `i` of a tiling by blocks tiling exactly
the same interval, then re-sorting, splices the new blocks in place. -/
theorem sortByStart_replace (l1 l2 nbs : List Block) (R : Block) (lo hi : Int)
    (hcov : coversFrom lo (l1 ++ R :: l2) hi)
    (hnbs : coversFrom R.start nbs R.stop) :
    sortByStart ((l1 ++ l2) ++ nbs) = l1 ++ (nbs ++ l2) := by
  obtain ⟨mid, hm1, hm2⟩ := coversFrom_append_split lo l1 (R :: l2) hi hcov
  obtain ⟨hRs, hRpos, hl2⟩ := hm2
  have hcov' : coversFrom lo (l1 ++ (nbs ++ l2)) hi := by
    refine coversFrom_append lo mid l1 (nbs ++ l2) hi hm1 ?_
    refine coversFrom_append (mid + 1) R.stop nbs l2 hi ?_ hl2
    rw [hRs] at hnbs
    exact hnbs
  apply sortByStart_eq_of
  · have p2 : (l1 ++ (nbs ++ l2)).Perm (l1 ++ (l2 ++ nbs)) :=
      List.Perm.append_left l1 List.perm_append_comm
    have p3 : l1 ++ (l2 ++ nbs) = (l1 ++ l2) ++ nbs :=
      (List.append_assoc l1 l2 nbs).symm
    exact p3 ▸ p2
  · exact coversFrom_pairwise lo _ hi hcov'

theorem owners_append (xs ys : List Block) :
    owners (xs ++ ys) = owners xs ++ owners ys := by
  simp [owners, allocList, List.filter_append]

theorem owners_cons (b : Block) (l : List Block) :
    owners (b :: l) = if b.id = "unused" then owners l else b.id :: owners l := by
  by_cases hb : b.id = "unused" <;> simp [owners, allocList_cons, hb]

theorem newBlocksFor_split (R : Block) (p : String) (s : Int) (hlt : s < R.size) :
    newBlocksFor R p s =
      [⟨R.start, R.start + s - 1, p⟩, ⟨R.start + s - 1 + 1, R.stop, "unused"⟩] := by
  unfold newBlocksFor
  rw [if_pos hlt]

theorem newBlocksFor_exact (R : Block) (p : String) (s : Int) (hlt : ¬s < R.size) :
    newBlocksFor R p s = [⟨R.start, R.start + s - 1, p⟩] := by
  unfold newBlocksFor
  rw [if_neg hlt]

theorem coversFrom_replace (l1 l2 nbs : List Block) (R : Block) (lo hi : Int)
    (hcov : coversFrom lo (l1 ++ R :: l2) hi)
    (hnbs : coversFrom R.start nbs R.stop) :
    coversFrom lo (l1 ++ (nbs ++ l2)) hi := by
  obtain ⟨mid, hm1, hm2⟩ := coversFrom_append_split lo l1 (R :: l2) hi hcov
  obtain ⟨hRs, hRpos, hl2⟩ := hm2
  refine coversFrom_append lo mid l1 (nbs ++ l2) hi hm1 ?_
  refine coversFrom_append (mid + 1) R.stop nbs l2 hi ?_ hl2
  rw [hRs] at hnbs
  exact hnbs

theorem alloc_layout (MAX : Int) (m : Memory) (p : String) (s : Int)
    (i : Nat) (R : Block) (hv : m.Valid MAX) (hs : 0 < s)
    (hcand : (i, R) ∈ m.getFreeBlocksForSizeWithIndex s) :
    sortByStart (m.memory.eraseIdx i ++ newBlocksFor R p s) =
      m.memory.take i ++ (newBlocksFor R p s ++ m.memory.drop (i + 1)) := by
  obtain ⟨hget, hfree, hsz⟩ := mem_getFreeBlocks m s i R hcand
  have hsplit := memory_split_at m.memory i R hget
  have hlen := take_length_at m.memory i R hget
  have hcov : coversFrom 0 (m.memory.take i ++ R :: m.memory.drop (i + 1)) (MAX - 1) := by
    rw [← hsplit]
    exact hv.1
  rw [eraseIdx_eq_take_drop m.memory i]
  exact sortByStart_replace (m.memory.take i) (m.memory.drop (i + 1))
    (newBlocksFor R p s) R 0 (MAX - 1) hcov (newBlocksFor_covers R p s hs hsz)

/-- The spliced post-allocation state is valid, provided the process id is
fresh and is not the free-marker string. -/
theorem alloc_spliced_valid (MAX : Int) (m : Memory) (p : String) (s : Int)
    (i : Nat) (R : Block) (hv : m.Valid MAX) (hs : 0 < s) (hpu : p ≠ "unused")
    (hp : p ∉ m.unique_ids) (hcand : (i, R) ∈ m.getFreeBlocksForSizeWithIndex s) :
    (⟨m.memory.take i ++ (newBlocksFor R p s ++ m.memory.drop (i + 1)),
      insert p m.unique_ids⟩ : Memory).Valid MAX := by
  obtain ⟨hget, hfree, hsz⟩ := mem_getFreeBlocks m s i R hcand
  obtain ⟨hcov0, hchain0, hnodup0, hids0⟩ := hv
  have hsplit := memory_split_at m.memory i R hget
  set l1 := m.memory.take i with hl1
  set l2 := m.memory.drop (i + 1) with hl2
  set nbs := newBlocksFor R p s with hnbs
  have hcov : coversFrom 0 (l1 ++ R :: l2) (MAX - 1) := by
    rw [← hsplit]; exact hcov0
  have hchain : List.Chain' notBothFree (l1 ++ R :: l2) := by
    rw [← hsplit]; exact hchain0
  have hnbs_head : ∃ t, nbs = (⟨R.start, R.start + s - 1, p⟩ : Block) :: t := by
    by_cases hlt : s < R.size
    · exact ⟨_, newBlocksFor_split R p s hlt⟩
    · exact ⟨[], newBlocksFor_exact R p s hlt⟩
  have hchain_nbs : List.Chain' notBothFree nbs := by
    by_cases hlt : s < R.size
    · rw [hnbs, newBlocksFor_split R p s hlt]
      refine List.chain'_cons.mpr ⟨?_, List.chain'_singleton _⟩
      intro hcontra
      exact hpu hcontra.1
    · rw [hnbs, newBlocksFor_exact R p s hlt]
      exact List.chain'_singleton _
  have hl2head : ∀ y ∈ l2.head?, ¬y.id = "unused" := by
    intro y hy
    have h1 := (List.chain'_append.mp hchain).2.1
    have h2 := (List.chain'_cons'.mp h1).1 y hy
    intro hyf
    exact h2 ⟨hfree, hyf⟩
  have hnbs_last : ∀ x ∈ nbs.getLast?, x.id = p ∨ x.id = "unused" := by
    by_cases hlt : s < R.size
    · rw [hnbs, newBlocksFor_split R p s hlt]
      intro x hx
      simp at hx
      right
      rw [← hx]
    · rw [hnbs, newBlocksFor_exact R p s hlt]
      intro x hx
      simp at hx
      left
      rw [← hx]
  -- The new chain.
  have hchain' : List.Chain' notBothFree (l1 ++ (nbs ++ l2)) := by
    obtain ⟨hc1, _, hjunc1⟩ := List.chain'_append.mp hchain
    refine List.chain'_append.mpr ⟨hc1, ?_, ?_⟩
    · refine List.chain'_append.mpr ⟨hchain_nbs, (List.chain'_cons'.mp
        (List.chain'_append.mp hchain).2.1).2, ?_⟩
      intro x hx y hy hcontra
      exact hl2head y hy hcontra.2
    · intro x hx y hy
      obtain ⟨t, ht⟩ := hnbs_head
      rw [ht] at hy
      simp at hy
      rw [← hy]
      intro hcontra
      exact hpu hcontra.2
  -- Owner bookkeeping.
  have howners_nbs : owners nbs = [p] := by
    by_cases hlt : s < R.size
    · rw [hnbs, newBlocksFor_split R p s hlt, owners_cons, owners_cons]
      simp [hpu]
      rfl
    · rw [hnbs, newBlocksFor_exact R p s hlt, owners_cons]
      simp [hpu]
      rfl
  have howners_old : owners m.memory = owners l1 ++ owners l2 := by
    rw [hsplit, owners_append, owners_cons, if_pos hfree]
  have howners_new : owners (l1 ++ (nbs ++ l2)) = owners l1 ++ p :: owners l2 := by
    rw [owners_append, owners_append, howners_nbs]
    rfl
  have hpmem : p ∉ owners m.memory := by
    intro hcontra
    exact hp (hids0 ▸ List.mem_toFinset.mpr hcontra)
  refine ⟨coversFrom_replace l1 l2 nbs R 0 (MAX - 1) hcov
      (newBlocksFor_covers R p s hs hsz), hchain', ?_, ?_⟩
  · show (owners (l1 ++ (nbs ++ l2))).Nodup
    rw [howners_new]
    rw [List.nodup_middle]
    refine List.Nodup.cons ?_ (by rw [← howners_old]; exact hnodup0)
    rw [← howners_old]
    exact hpmem
  · show insert p m.unique_ids = (owners (l1 ++ (nbs ++ l2))).toFinset
    rw [howners_new, List.toFinset_append, List.toFinset_cons,
      Finset.union_insert, ← List.toFinset_append, ← howners_old, hids0]

/-! ### Case analysis of the three allocation methods -/

theorem head?_mem {α : Type} (l : List α) (a : α) (h : l.head? = some a) :
    a ∈ l :=
  List.mem_of_mem_head? (Option.mem_def.mpr h)

theorem addMemoryFirstFit_spec (m : Memory) (p : String) (s : Int) :
    (∃ i R, (m.getFreeBlocksForSizeWithIndex s).head? = some (i, R) ∧
        p ∉ m.unique_ids ∧
        m.addMemoryFirstFit p s =
          (⟨sortByStart (m.memory.eraseIdx i ++ newBlocksFor R p s),
            insert p m.unique_ids⟩, .ok)) ∨
    ((m.addMemoryFirstFit p s).1 = m ∧ (m.addMemoryFirstFit p s).2 ≠ .ok) := by
  by_cases hp : p ∈ m.unique_ids
  · right
    unfold Memory.addMemoryFirstFit
    rw [if_pos hp]
    exact ⟨rfl, by simp⟩
  · cases hh : (m.getFreeBlocksForSizeWithIndex s).head? with
    | none =>
      right
      unfold Memory.addMemoryFirstFit
      rw [if_neg hp, hh]
      exact ⟨rfl, by simp⟩
    | some pr =>
      left
      obtain ⟨i, R⟩ := pr
      refine ⟨i, R, rfl, hp, ?_⟩
      unfold Memory.addMemoryFirstFit
      rw [if_neg hp, hh]

theorem addMemoryBestFit_spec (m : Memory) (p : String) (s : Int) :
    (∃ i R, ((m.getFreeBlocksForSizeWithIndex s).insertionSort
          (fun a b => a.2.size ≤ b.2.size)).head? = some (i, R) ∧
        p ∉ m.unique_ids ∧
        m.addMemoryBestFit p s =
          (⟨sortByStart (m.memory.eraseIdx i ++ newBlocksFor R p s),
            insert p m.unique_ids⟩, .ok)) ∨
    ((m.addMemoryBestFit p s).1 = m ∧ (m.addMemoryBestFit p s).2 ≠ .ok) := by
  by_cases hp : p ∈ m.unique_ids
  · right
    unfold Memory.addMemoryBestFit
    rw [if_pos hp]
    exact ⟨rfl, by simp⟩
  · cases hh : ((m.getFreeBlocksForSizeWithIndex s).insertionSort
        (fun a b => a.2.size ≤ b.2.size)).head? with
    | none =>
      right
      unfold Memory.addMemoryBestFit
      rw [if_neg hp, hh]
      exact ⟨rfl, by simp⟩
    | some pr =>
      left
      obtain ⟨i, R⟩ := pr
      refine ⟨i, R, rfl, hp, ?_⟩
      unfold Memory.addMemoryBestFit
      rw [if_neg hp, hh]

theorem addMemoryWorstFit_spec (m : Memory) (p : String) (s : Int) :
    (∃ i R, ((m.getFreeBlocksForSizeWithIndex s).insertionSort
          (fun a b => b.2.size ≤ a.2.size)).head? = some (i, R) ∧
        p ∉ m.unique_ids ∧
        m.addMemoryWorstFit p s =
          (⟨sortByStart (m.memory.eraseIdx i ++ newBlocksFor R p s),
            insert p m.unique_ids⟩, .ok)) ∨
    ((m.addMemoryWorstFit p s).1 = m ∧ (m.addMemoryWorstFit p s).2 ≠ .ok) := by
  by_cases hp : p ∈ m.unique_ids
  · right
    unfold Memory.addMemoryWorstFit
    rw [if_pos hp]
    exact ⟨rfl, by simp⟩
  · cases hh : ((m.getFreeBlocksForSizeWithIndex s).insertionSort
        (fun a b => b.2.size ≤ a.2.size)).head? with
    | none =>
      right
      unfold Memory.addMemoryWorstFit
      rw [if_neg hp, hh]
      exact ⟨rfl, by simp⟩
    | some pr =>
      left
      obtain ⟨i, R⟩ := pr
      refine ⟨i, R, rfl, hp, ?_⟩
      unfold Memory.addMemoryWorstFit
      rw [if_neg hp, hh]

theorem head?_sort_mem (cands : List (Nat × Block))
    (r : Nat × Block → Nat × Block → Prop) [DecidableRel r] (i : Nat) (R : Block)
    (h : (cands.insertionSort r).head? = some (i, R)) : (i, R) ∈ cands :=
  (List.perm_insertionSort r cands).mem_iff.mp (head?_mem _ _ h)

theorem valid_addMemoryFirstFit (MAX : Int) (m : Memory) (p : String) (s : Int)
    (hv : m.Valid MAX) (hs : 0 < s) (hpu : p ≠ "unused") :
    ((m.addMemoryFirstFit p s).1).Valid MAX := by
  rcases addMemoryFirstFit_spec m p s with ⟨i, R, hh, hp, heq⟩ | ⟨heq, -⟩
  · have hcand : (i, R) ∈ m.getFreeBlocksForSizeWithIndex s := head?_mem _ _ hh
    rw [heq]
    show Memory.Valid MAX ⟨sortByStart (m.memory.eraseIdx i ++ newBlocksFor R p s),
      insert p m.unique_ids⟩
    rw [alloc_layout MAX m p s i R hv hs hcand]
    exact alloc_spliced_valid MAX m p s i R hv hs hpu hp hcand
  · rw [heq]
    exact hv

theorem valid_addMemoryBestFit (MAX : Int) (m : Memory) (p : String) (s : Int)
    (hv : m.Valid MAX) (hs : 0 < s) (hpu : p ≠ "unused") :
    ((m.addMemoryBestFit p s).1).Valid MAX := by
  rcases addMemoryBestFit_spec m p s with ⟨i, R, hh, hp, heq⟩ | ⟨heq, -⟩
  · have hcand : (i, R) ∈ m.getFreeBlocksForSizeWithIndex s :=
      head?_sort_mem _ _ i R hh
    rw [heq]
    show Memory.Valid MAX ⟨sortByStart (m.memory.eraseIdx i ++ newBlocksFor R p s),
      insert p m.unique_ids⟩
    rw [alloc_layout MAX m p s i R hv hs hcand]
    exact alloc_spliced_valid MAX m p s i R hv hs hpu hp hcand
  · rw [heq]
    exact hv

theorem valid_addMemoryWorstFit (MAX : Int) (m : Memory) (p : String) (s : Int)
    (hv : m.Valid MAX) (hs : 0 < s) (hpu : p ≠ "unused") :
    ((m.addMemoryWorstFit p s).1).Valid MAX := by
  rcases addMemoryWorstFit_spec m p s with ⟨i, R, hh, hp, heq⟩ | ⟨heq, -⟩
  · have hcand : (i, R) ∈ m.getFreeBlocksForSizeWithIndex s :=
      head?_sort_mem _ _ i R hh
    rw [heq]
    show Memory.Valid MAX ⟨sortByStart (m.memory.eraseIdx i ++ newBlocksFor R p s),
      insert p m.unique_ids⟩
    rw [alloc_layout MAX m p s i R hv hs hcand]
    exact alloc_spliced_valid MAX m p s i R hv hs hpu hp hcand
  · rw [heq]
    exact hv

theorem valid_allocate (MAX : Int) (m : Memory) (p : String) (s : Int)
    (pol : Policy) (hv : m.Valid MAX) (hs : 0 < s) (hpu : p ≠ "unused") :
    ((m.allocate p s pol).1).Valid MAX := by
  cases pol with
  | firstFit => exact valid_addMemoryFirstFit MAX m p s hv hs hpu
  | bestFit => exact valid_addMemoryBestFit MAX m p s hv hs hpu
  | worstFit => exact valid_addMemoryWorstFit MAX m p s hv hs hpu

/-! ### Release: locating and freeing the owned block -/

theorem owners_not_unused (l : List Block) : "unused" ∉ owners l := by
  intro h
  obtain ⟨b, hb, hid⟩ := List.mem_map.mp h
  have := (List.mem_filter.mp hb).2
  simp at this
  exact this hid

theorem valid_unused_not_mem (MAX : Int) (m : Memory) (hv : m.Valid MAX) :
    "unused" ∉ m.unique_ids := by
  intro h
  rw [hv.2.2.2] at h
  exact owners_not_unused _ (List.mem_toFinset.mp h)

theorem mem_owners_iff (l : List Block) (p : String) :
    p ∈ owners l ↔ ∃ b ∈ l, b.id = p ∧ p ≠ "unused" := by
  constructor
  · intro h
    obtain ⟨b, hb, hid⟩ := List.mem_map.mp h
    have hmem := (List.mem_filter.mp hb).1
    have hne := (List.mem_filter.mp hb).2
    simp at hne
    exact ⟨b, hmem, hid, by rw [← hid]; exact fun hc => hne hc⟩
  · intro ⟨b, hb, hid, hne⟩
    refine List.mem_map.mpr ⟨b, List.mem_filter.mpr ⟨hb, ?_⟩, hid⟩
    simp
    rw [hid]
    exact fun hc => hne hc

/-- Locate the first block owned by `p`, flip its id to `"unused"`. -/
theorem release_find (l : List Block) (p : String) (hpu : p ≠ "unused")
    (hmem : ∃ b ∈ l, b.id = p) :
    ∃ l1 B l2, l = l1 ++ B :: l2 ∧ B.id = p ∧ (∀ x ∈ l1, x.id ≠ p) ∧
      l.findIdx? (fun b => b.id == p) = some l1.length ∧
      l.modify (fun b => { b with id := "unused" }) l1.length =
        l1 ++ (⟨B.start, B.stop, "unused"⟩ : Block) :: l2 := by
  induction l with
  | nil => obtain ⟨b, hb, -⟩ := hmem; cases hb
  | cons x xs ih =>
    by_cases hx : x.id = p
    · refine ⟨[], x, xs, by simp, hx, by simp, ?_, ?_⟩
      · rw [List.findIdx?_cons]
        simp [hx]
      · simp [List.modify]
    · have hmem' : ∃ b ∈ xs, b.id = p := by
        obtain ⟨b, hb, hid⟩ := hmem
        rcases List.mem_cons.mp hb with rfl | hb
        · exact absurd hid hx
        · exact ⟨b, hb, hid⟩
      obtain ⟨l1, B, l2, hsplit, hB, hl1, hfind, hmod⟩ := ih hmem'
      refine ⟨x :: l1, B, l2, by rw [hsplit]; rfl, hB, ?_, ?_, ?_⟩
      · intro y hy
        rcases List.mem_cons.mp hy with rfl | hy
        · exact hx
        · exact hl1 y hy
      · rw [List.findIdx?_cons, List.findIdx?_succ]
        simp only [show (x.id == p) = false from by simp [hx]]
        rw [hfind]
        simp
      · show (x :: xs).modify (fun b => { b with id := "unused" }) (l1.length + 1) =
          (x :: l1) ++ (⟨B.start, B.stop, "unused"⟩ : Block) :: l2
        simp only [List.modify]
        rw [show ((x :: l1) ++ (⟨B.start, B.stop, "unused"⟩ : Block) :: l2) =
          x :: (l1 ++ (⟨B.start, B.stop, "unused"⟩ : Block) :: l2) from rfl, ← hmod]
        simp [List.modify]

/-- Successful release: the first `p`-owned block is freed in place and the
result is the coalescing of the flipped list. -/
theorem release_success_eq (MAX : Int) (m : Memory) (p : String)
    (hv : m.Valid MAX) (hp : p ∈ m.unique_ids) :
    ∃ l1 B l2, m.memory = l1 ++ B :: l2 ∧ B.id = p ∧ p ≠ "unused" ∧
      (∀ x ∈ l1, x.id ≠ p) ∧
      m.release p = (⟨coalesce (l1 ++ (⟨B.start, B.stop, "unused"⟩ : Block) :: l2),
        m.unique_ids.erase p⟩, true) := by
  have hpu : p ≠ "unused" := by
    intro hc
    exact valid_unused_not_mem MAX m hv (hc ▸ hp)
  have hpo : p ∈ owners m.memory := by
    rw [hv.2.2.2] at hp
    exact List.mem_toFinset.mp hp
  obtain ⟨b0, hb0, hid0, -⟩ := (mem_owners_iff _ _).mp hpo
  obtain ⟨l1, B, l2, hsplit, hB, hl1, hfind, hmod⟩ :=
    release_find m.memory p hpu ⟨b0, hb0, hid0⟩
  refine ⟨l1, B, l2, hsplit, hB, hpu, hl1, ?_⟩
  unfold Memory.release
  rw [if_pos hp, hfind]
  have hflip : m.memory.modify (fun b => { b with id := "unused" })
      ((some l1.length).getD 0) = l1 ++ (⟨B.start, B.stop, "unused"⟩ : Block) :: l2 := by
    simpa using hmod
  simp only [hflip]
  have hcovflip : coversFrom 0 (l1 ++ (⟨B.start, B.stop, "unused"⟩ : Block) :: l2)
      (MAX - 1) := by
    have hcov : coversFrom 0 (l1 ++ B :: l2) (MAX - 1) := by
      rw [← hsplit]; exact hv.1
    obtain ⟨mid, hm1, hm2⟩ := coversFrom_append_split 0 l1 (B :: l2) (MAX - 1) hcov
    obtain ⟨hBs, hBpos, hl2c⟩ := hm2
    exact coversFrom_append 0 mid l1 _ (MAX - 1) hm1 ⟨hBs, hBpos, hl2c⟩
  rw [combine_adjacent_holes_eq_coalesce _ 0 (MAX - 1) hcovflip]

theorem release_fail_eq (m : Memory) (p : String) (hp : p ∉ m.unique_ids) :
    m.release p = (m, false) := by
  unfold Memory.release
  rw [if_neg hp]

theorem owners_coalesce (l : List Block) : owners (coalesce l) = owners l := by
  unfold owners
  rw [coalesce_allocList]

theorem valid_release (MAX : Int) (m : Memory) (p : String) (hv : m.Valid MAX) :
    ((m.release p).1).Valid MAX := by
  by_cases hp : p ∈ m.unique_ids
  · obtain ⟨l1, B, l2, hsplit, hB, hpu, hl1, heq⟩ := release_success_eq MAX m p hv hp
    rw [heq]
    have hcov : coversFrom 0 (l1 ++ B :: l2) (MAX - 1) := by
      rw [← hsplit]; exact hv.1
    obtain ⟨mid, hm1, hm2⟩ := coversFrom_append_split 0 l1 (B :: l2) (MAX - 1) hcov
    obtain ⟨hBs, hBpos, hl2c⟩ := hm2
    have hcovflip : coversFrom 0
        (l1 ++ (⟨B.start, B.stop, "unused"⟩ : Block) :: l2) (MAX - 1) :=
      coversFrom_append 0 mid l1 _ (MAX - 1) hm1 ⟨hBs, hBpos, hl2c⟩
    have hofl : owners (l1 ++ (⟨B.start, B.stop, "unused"⟩ : Block) :: l2) =
        owners l1 ++ owners l2 := by
      rw [owners_append, owners_cons]
      simp
    have hoold : owners m.memory = owners l1 ++ p :: owners l2 := by
      rw [hsplit, owners_append, owners_cons, if_neg (by rw [hB]; exact hpu), hB]
    have hnd := hv.2.2.1
    rw [hoold, List.nodup_middle, List.nodup_cons] at hnd
    refine ⟨coalesce_covers _ 0 (MAX - 1) hcovflip, coalesce_chain' _, ?_, ?_⟩
    · show (owners (coalesce _)).Nodup
      rw [owners_coalesce, hofl]
      exact hnd.2
    · show m.unique_ids.erase p = (owners (coalesce _)).toFinset
      rw [owners_coalesce, hofl, hv.2.2.2, hoold, List.toFinset_append,
        List.toFinset_cons, Finset.union_insert, List.toFinset_append]
      refine Finset.erase_insert ?_
      rw [← List.toFinset_append]
      intro hc
      exact hnd.1 (List.mem_toFinset.mp hc)
  · rw [release_fail_eq m p hp]
    exact hv

/-! ### Compaction -/

theorem relocate_ids (l : List Block) :
    ∀ st, (relocate st l).map Block.id = l.map Block.id := by
  induction l with
  | nil => intro st; rfl
  | cons am rest ih =>
    intro st
    simp only [relocate, List.map_cons, ih (st + am.size)]

theorem relocate_pairs (l : List Block) :
    ∀ st, (relocate st l).map (fun b => (b.id, b.size)) =
      l.map (fun b => (b.id, b.size)) := by
  induction l with
  | nil => intro st; rfl
  | cons am rest ih =>
    intro st
    simp only [relocate, List.map_cons, ih (st + am.size)]
    refine congrArg (fun x => x :: _) ?_
    show (am.id, st + am.size - 1 - st + 1) = (am.id, am.size)
    rw [Prod.mk.injEq]
    exact ⟨rfl, by omega⟩

theorem relocate_covers (l : List Block) (h : ∀ b ∈ l, 0 < b.size) :
    ∀ st, coversFrom st (relocate st l) (st + totalSize l - 1) := by
  induction l with
  | nil =>
    intro st
    show st = st + totalSize [] - 1 + 1
    simp [totalSize]
  | cons am rest ih =>
    intro st
    have ham : 0 < am.size := h am (List.mem_cons_self am rest)
    refine ⟨rfl, by show st ≤ st + am.size - 1; omega, ?_⟩
    have := ih (fun b hb => h b (List.mem_cons_of_mem am hb)) (st + am.size)
    have heq : st + am.size - 1 + 1 = st + am.size := by omega
    rw [heq]
    have heq2 : st + am.size + totalSize rest - 1 = st + totalSize (am :: rest) - 1 := by
      simp only [totalSize, List.map_cons, List.sum_cons]
      omega
    rw [heq2] at this
    exact this

theorem freeSize_allocSize_total (l : List Block) :
    freeSize l + allocSize l = totalSize l := by
  induction l with
  | nil => simp [freeSize, allocSize, totalSize, freeList, allocList]
  | cons b rest ih =>
    by_cases hb : b.id = "unused" <;>
      simp only [freeSize, allocSize, totalSize, freeList_cons, allocList_cons,
        if_pos, if_neg, hb, List.map_cons, List.sum_cons, ite_true, ite_false] <;>
      [skip; skip] <;>
      simp only [freeSize, allocSize, totalSize] at ih <;> omega

theorem length_le_sum_sizes (l : List Block) (h : ∀ b ∈ l, 0 < b.size) :
    (l.length : Int) ≤ totalSize l := by
  induction l with
  | nil => simp [totalSize]
  | cons b rest ih =>
    have hb := h b (List.mem_cons_self b rest)
    have := ih (fun x hx => h x (List.mem_cons_of_mem b hx))
    simp only [totalSize, List.map_cons, List.sum_cons, List.length_cons] at *
    push_cast
    omega

theorem coversFrom_mem_size (lo hi : Int) (l : List Block)
    (hcov : coversFrom lo l hi) {b : Block} (hb : b ∈ l) : 0 < b.size := by
  have := coversFrom_mem lo l hi hcov hb
  unfold Block.size
  omega

theorem chain'_allocated_hole (xs : List Block) (hole : Block)
    (hxs : ∀ b ∈ xs, ¬b.id = "unused") :
    List.Chain' notBothFree (xs ++ [hole]) := by
  induction xs with
  | nil => exact List.chain'_singleton hole
  | cons x rest ih =>
    refine List.chain'_cons'.mpr ⟨?_, ih (fun b hb => hxs b (List.mem_cons_of_mem x hb))⟩
    intro y hy hcontra
    exact hxs x (List.mem_cons_self x rest) hcontra.1

theorem owners_all_alloc (l : List Block) (h : ∀ b ∈ l, ¬b.id = "unused") :
    owners l = l.map Block.id := by
  unfold owners allocList
  rw [List.filter_eq_self.mpr]
  intro b hb
  simp
  exact h b hb

theorem compactAllHoles_noop (m : Memory) (h : (freeList m.memory).length < 2) :
    m.compactAllHoles = m := by
  have h' : (m.memory.filter (fun b => b.id == "unused")).length < 2 := h
  simp only [Memory.compactAllHoles]
  rw [if_pos h']

theorem compactAllHoles_eq (m : Memory) (h : ¬(freeList m.memory).length < 2) :
    m.compactAllHoles = ⟨relocate 0 (allocList m.memory) ++
      [⟨allocSize m.memory, allocSize m.memory + freeSize m.memory - 1, "unused"⟩],
      m.unique_ids⟩ := by
  have h' : ¬(m.memory.filter (fun b => b.id == "unused")).length < 2 := h
  simp only [Memory.compactAllHoles]
  rw [if_neg h']
  rfl

theorem valid_compactAllHoles (MAX : Int) (m : Memory) (hv : m.Valid MAX) :
    (m.compactAllHoles).Valid MAX := by
  by_cases h : (freeList m.memory).length < 2
  · rw [compactAllHoles_noop m h]
    exact hv
  · rw [compactAllHoles_eq m h]
    have hposA : ∀ b ∈ allocList m.memory, 0 < b.size := fun b hb =>
      coversFrom_mem_size 0 (MAX - 1) m.memory hv.1 (List.mem_filter.mp hb).1
    have hposF : ∀ b ∈ freeList m.memory, 0 < b.size := fun b hb =>
      coversFrom_mem_size 0 (MAX - 1) m.memory hv.1 (List.mem_filter.mp hb).1
    have hfree2 : (2 : Int) ≤ (freeList m.memory).length := by
      have := not_lt.mp h
      exact_mod_cast this
    have hfreeS : (2 : Int) ≤ freeSize m.memory :=
      le_trans hfree2 (length_le_sum_sizes _ hposF)
    have htot : totalSize m.memory = MAX := by
      have := coversFrom_totalSize 0 m.memory (MAX - 1) hv.1
      omega
    have hsum : allocSize m.memory + freeSize m.memory = MAX := by
      have := freeSize_allocSize_total m.memory
      omega
    have hAids : ∀ b ∈ allocList m.memory, ¬b.id = "unused" := by
      intro b hb
      have := (List.mem_filter.mp hb).2
      simp at this
      exact this
    have hRids : ∀ b ∈ relocate 0 (allocList m.memory), ¬b.id = "unused" := by
      intro b hb
      have hmm : b.id ∈ (relocate 0 (allocList m.memory)).map Block.id :=
        List.mem_map.mpr ⟨b, hb, rfl⟩
      rw [relocate_ids] at hmm
      obtain ⟨a, ha, haid⟩ := List.mem_map.mp hmm
      rw [← haid]
      exact hAids a ha
    have hcovR := relocate_covers (allocList m.memory) hposA 0
    have hallocTot : totalSize (allocList m.memory) = allocSize m.memory := rfl
    have hownR : owners (relocate 0 (allocList m.memory) ++
        [(⟨allocSize m.memory, allocSize m.memory + freeSize m.memory - 1,
          "unused"⟩ : Block)]) = owners m.memory := by
      rw [owners_append]
      have h1 : owners [(⟨allocSize m.memory,
          allocSize m.memory + freeSize m.memory - 1, "unused"⟩ : Block)] = [] := by
        rw [owners_cons]
        simp [owners, allocList]
      rw [h1, List.append_nil, owners_all_alloc _ hRids, relocate_ids]
      rfl
    refine ⟨?_, chain'_allocated_hole _ _ hRids, ?_, ?_⟩
    · refine coversFrom_append 0 (allocSize m.memory - 1) _ _ (MAX - 1) ?_ ?_
      · rw [hallocTot] at hcovR
        have heq : 0 + allocSize m.memory - 1 = allocSize m.memory - 1 := by omega
        rw [heq] at hcovR
        exact hcovR
      · refine ⟨by show allocSize m.memory = allocSize m.memory - 1 + 1; omega,
          by show allocSize m.memory - 1 + 1 ≤
            allocSize m.memory + freeSize m.memory - 1; omega, ?_⟩
        show allocSize m.memory + freeSize m.memory - 1 + 1 = MAX - 1 + 1
        omega
    · show (owners _).Nodup
      rw [hownR]
      exact hv.2.2.1
    · show m.unique_ids = (owners _).toFinset
      rw [hownR]
      exact hv.2.2.2

/-! ### The inductive invariant over command sequences -/

/-- The input discipline of the claims: requested sizes are positive, and no
process uses the reserved free-marker string as its identifier. -/
def opOK : Op → Prop
  | .alloc p s _ => 0 < s ∧ p ≠ "unused"
  | .rel _ => True
  | .compact => True

instance decOpOK : (op : Op) → Decidable (opOK op)
  | .alloc p s _ => inferInstanceAs (Decidable (0 < s ∧ p ≠ "unused"))
  | .rel _ => .isTrue trivial
  | .compact => .isTrue trivial

theorem valid_init (MAX : Int) (h : 0 < MAX) : (Memory.init MAX).Valid MAX := by
  refine ⟨⟨rfl, by show (0 : Int) ≤ MAX - 1; omega, rfl⟩, ?_, ?_, ?_⟩
  · exact List.chain'_singleton _
  · show (owners [(⟨0, MAX - 1, "unused"⟩ : Block)]).Nodup
    rw [owners_cons]
    simp [owners, allocList]
  · show (∅ : Finset String) = (owners [(⟨0, MAX - 1, "unused"⟩ : Block)]).toFinset
    rw [owners_cons]
    simp [owners, allocList]

theorem valid_step (MAX : Int) (m : Memory) (op : Op) (hv : m.Valid MAX)
    (hop : opOK op) : (m.step op).Valid MAX := by
  cases op with
  | alloc p s pol => exact valid_allocate MAX m p s pol hv hop.1 hop.2
  | rel p => exact valid_release MAX m p hv
  | compact => exact valid_compactAllHoles MAX m hv

theorem valid_foldl (MAX : Int) (ops : List Op) :
    ∀ m : Memory, m.Valid MAX → (∀ op ∈ ops, opOK op) →
      (ops.foldl Memory.step m).Valid MAX := by
  induction ops with
  | nil => intro m hv _; exact hv
  | cons op rest ih =>
    intro m hv hops
    exact ih (m.step op) (valid_step MAX m op hv (hops op (List.mem_cons_self op rest)))
      (fun o ho => hops o (List.mem_cons_of_mem op ho))

theorem valid_run (MAX : Int) (ops : List Op) (hMAX : 0 < MAX)
    (hops : ∀ op ∈ ops, opOK op) : (Memory.run MAX ops).Valid MAX :=
  valid_foldl MAX ops (Memory.init MAX) (valid_init MAX hMAX) hops

/-! ### Stable-sort selection: the head of the sorted candidate list is the
earliest minimum -/

theorem head?_eq_cons {α : Type} (l : List α) (a : α) (h : l.head? = some a) :
    ∃ t, l = a :: t := by
  cases l with
  | nil => cases h
  | cons x t =>
    refine ⟨t, ?_⟩
    injection h with h
    rw [h]

theorem sort_head_le (r : Nat × Block → Nat × Block → Prop) [DecidableRel r]
    [IsTotal (Nat × Block) r] [IsTrans (Nat × Block) r]
    (l : List (Nat × Block)) (a : Nat × Block)
    (hh : (l.insertionSort r).head? = some a) :
    ∀ b ∈ l, r a b := by
  intro b hb
  obtain ⟨t, ht⟩ := head?_eq_cons _ a hh
  have hsorted := List.sorted_insertionSort r l
  rw [ht] at hsorted
  have hmem : b ∈ l.insertionSort r := (List.perm_insertionSort r l).mem_iff.mpr hb
  rw [ht] at hmem
  rcases List.mem_cons.mp hmem with rfl | hmem
  · rcases IsTotal.total (r := r) b b with h1 | h1 <;> exact h1
  · exact (List.pairwise_cons.mp hsorted).1 b hmem

theorem sort_head_stable (r : Nat × Block → Nat × Block → Prop) [DecidableRel r]
    (l : List (Nat × Block)) (hnd : l.Nodup) (a x : Nat × Block)
    (hh : (l.insertionSort r).head? = some a)
    (hsub : [x, a].Sublist l) (hxa : r x a) (hne : x ≠ a) : False := by
  have hs : [x, a].Sublist (l.insertionSort r) :=
    List.pair_sublist_insertionSort hxa hsub
  obtain ⟨t, ht⟩ := head?_eq_cons _ a hh
  have hndms : (l.insertionSort r).Nodup :=
    (List.perm_insertionSort r l).nodup_iff.mpr hnd
  rw [ht] at hs hndms
  have hanotint : a ∉ t := (List.nodup_cons.mp hndms).1
  rcases List.sublist_cons_iff.mp hs with hs | ⟨rr, hr, hrs⟩
  · exact hanotint (hs.subset (by simp))
  · injection hr with h1 h2
    exact hne h1

theorem getFree_pairwise (m : Memory) (s : Int)
    (hpw : m.memory.Pairwise startLt) :
    (m.getFreeBlocksForSizeWithIndex s).Pairwise
      (fun a b => a.2.start < b.2.start) := by
  unfold Memory.getFreeBlocksForSizeWithIndex
  refine List.Pairwise.filter _ ?_
  have h1 : List.Pairwise startLt (m.memory.enum.map Prod.snd) := by
    rw [List.enum_map_snd]
    exact hpw
  have h2 : List.Pairwise (fun a b : Nat × Block => startLt a.2 b.2) m.memory.enum :=
    List.pairwise_map.mp h1
  exact h2.imp (fun h => h)

theorem nodup_of_pairwise_start (l : List (Nat × Block))
    (hpw : l.Pairwise (fun a b => a.2.start < b.2.start)) : l.Nodup := by
  refine hpw.imp ?_
  intro a b h hc
  rw [hc] at h
  exact lt_irrefl _ h

theorem sublist_pair_of_pairwise (l : List (Nat × Block))
    (hpw : l.Pairwise (fun a b => a.2.start < b.2.start))
    (x y : Nat × Block) (hx : x ∈ l) (hy : y ∈ l)
    (hr : x.2.start < y.2.start) : [x, y].Sublist l := by
  induction l with
  | nil => cases hx
  | cons hd t ih =>
    obtain ⟨hhd, htl⟩ := List.pairwise_cons.mp hpw
    rcases List.mem_cons.mp hx with hx2 | hx2
    · rcases List.mem_cons.mp hy with hy2 | hy2
      · rw [hx2, hy2] at hr
        exact absurd hr (lt_irrefl _)
      · rw [hx2]
        exact List.Sublist.cons₂ hd (List.singleton_sublist.mpr hy2)
    · rcases List.mem_cons.mp hy with hy2 | hy2
      · have h3 := hhd x hx2
        rw [hy2] at hr
        omega
      · exact List.Sublist.cons hd (ih htl hx2 hy2)

theorem addMemoryFirstFit_ok_eq (m : Memory) (p : String) (s : Int) (i : Nat)
    (R : Block) (hp : p ∉ m.unique_ids)
    (hh : (m.getFreeBlocksForSizeWithIndex s).head? = some (i, R)) :
    m.addMemoryFirstFit p s =
      (⟨sortByStart (m.memory.eraseIdx i ++ newBlocksFor R p s),
        insert p m.unique_ids⟩, .ok) := by
  unfold Memory.addMemoryFirstFit
  rw [if_neg hp, hh]

theorem addMemoryBestFit_ok_eq (m : Memory) (p : String) (s : Int) (i : Nat)
    (R : Block) (hp : p ∉ m.unique_ids)
    (hh : ((m.getFreeBlocksForSizeWithIndex s).insertionSort
      (fun a b => a.2.size ≤ b.2.size)).head? = some (i, R)) :
    m.addMemoryBestFit p s =
      (⟨sortByStart (m.memory.eraseIdx i ++ newBlocksFor R p s),
        insert p m.unique_ids⟩, .ok) := by
  unfold Memory.addMemoryBestFit
  rw [if_neg hp, hh]

theorem addMemoryWorstFit_ok_eq (m : Memory) (p : String) (s : Int) (i : Nat)
    (R : Block) (hp : p ∉ m.unique_ids)
    (hh : ((m.getFreeBlocksForSizeWithIndex s).insertionSort
      (fun a b => b.2.size ≤ a.2.size)).head? = some (i, R)) :
    m.addMemoryWorstFit p s =
      (⟨sortByStart (m.memory.eraseIdx i ++ newBlocksFor R p s),
        insert p m.unique_ids⟩, .ok) := by
  unfold Memory.addMemoryWorstFit
  rw [if_neg hp, hh]

theorem sort_head_exists (cands : List (Nat × Block))
    (r : Nat × Block → Nat × Block → Prop) [DecidableRel r] (hne : cands ≠ []) :
    ∃ i R, (cands.insertionSort r).head? = some (i, R) := by
  cases hms : cands.insertionSort r with
  | nil =>
    exfalso
    have hperm := List.perm_insertionSort r cands
    rw [hms] at hperm
    have hlen : cands.length = 0 := by
      rw [← hperm.length_eq]
      rfl
    exact hne (List.length_eq_zero.mp hlen)
  | cons pr t =>
    exact ⟨pr.1, pr.2, rfl⟩

/-! ### Coalescing an already-coalesced list, and freeing a freshly
allocated block -/

theorem coalesce_noop (l : List Block) (h : List.Chain' notBothFree l) :
    coalesce l = l := by
  induction l using coalesce.induct with
  | case1 => rw [coalesce]
  | case2 b => rw [coalesce]
  | case3 a b rest hc ih =>
    exact absurd hc ((List.chain'_cons.mp h).1)
  | case4 a b rest hc ih =>
    rw [coalesce_skip a b rest hc, ih (List.chain'_cons.mp h).2]

theorem coalesce_append_chain (xs ys : List Block)
    (hxs : List.Chain' notBothFree xs)
    (hjunc : ∀ x ∈ xs.getLast?, ∀ y ∈ ys.head?, notBothFree x y) :
    coalesce (xs ++ ys) = xs ++ coalesce ys := by
  induction xs with
  | nil => rfl
  | cons x xs' ih =>
    cases xs' with
    | nil =>
      cases ys with
      | nil => simp [coalesce]
      | cons y ys' =>
        have hxy : notBothFree x y := hjunc x rfl y rfl
        show coalesce (x :: y :: ys') = x :: coalesce (y :: ys')
        exact coalesce_skip x y ys' hxy
    | cons x2 xs'' =>
      have hx12 : notBothFree x x2 := (List.chain'_cons.mp hxs).1
      show coalesce (x :: x2 :: (xs'' ++ ys)) = x :: ((x2 :: xs'') ++ coalesce ys)
      rw [coalesce_skip x x2 (xs'' ++ ys) hx12]
      rw [show x2 :: (xs'' ++ ys) = (x2 :: xs'') ++ ys from rfl]
      rw [ih (List.chain'_cons.mp hxs).2 (fun a ha y hy => hjunc a ha y hy)]

theorem findIdx?_append_first (l1 : List Block) (B : Block) (l2 : List Block)
    (p : String) (hl1 : ∀ x ∈ l1, x.id ≠ p) (hB : B.id = p) :
    (l1 ++ B :: l2).findIdx? (fun b => b.id == p) = some l1.length := by
  induction l1 with
  | nil =>
    rw [List.nil_append, List.findIdx?_cons]
    simp [hB]
  | cons x xs ih =>
    rw [List.cons_append, List.findIdx?_cons, List.findIdx?_succ]
    have hx : ¬(x.id = p) := hl1 x (List.mem_cons_self x xs)
    simp only [show (x.id == p) = false from by simp [hx], Bool.false_eq_true,
      if_false]
    rw [ih (fun y hy => hl1 y (List.mem_cons_of_mem x hy))]
    simp

theorem modify_cons_zero (f : Block → Block) (x : Block) (xs : List Block) :
    (x :: xs).modify f 0 = f x :: xs := by
  simp [List.modify]

theorem modify_cons_succ (f : Block → Block) (x : Block) (xs : List Block)
    (n : Nat) : (x :: xs).modify f (n + 1) = x :: xs.modify f n := by
  simp [List.modify]

theorem modify_middle (f : Block → Block) (l1 : List Block) (B : Block)
    (l2 : List Block) :
    (l1 ++ B :: l2).modify f l1.length = l1 ++ f B :: l2 := by
  induction l1 with
  | nil => simp [List.modify]
  | cons x xs ih =>
    rw [List.cons_append, List.length_cons, modify_cons_succ, ih]
    rfl

theorem modify_found_unused (l : List Block) :
    ∀ j, l.findIdx? (fun b => b.id == "unused") = some j →
      l.modify (fun b => { b with id := "unused" }) j = l := by
  induction l with
  | nil => intro j hj; cases hj
  | cons x xs ih =>
    intro j hj
    rw [List.findIdx?_cons, List.findIdx?_succ] at hj
    by_cases hx : x.id = "unused"
    · simp only [show (x.id == "unused") = true from by simp [hx], if_true] at hj
      injection hj with hj
      rw [← hj, modify_cons_zero,
        show ({ x with id := "unused" } : Block) = x from block_eta_free x hx]
    · simp only [show (x.id == "unused") = false from by simp [hx],
        Bool.false_eq_true, if_false] at hj
      obtain ⟨j', hj', hjeq⟩ := Option.map_eq_some'.mp hj
      rw [← hjeq, modify_cons_succ, ih j' hj']

theorem findIdx?_isSome_of_mem (l : List Block) (b : Block) (hb : b ∈ l)
    (hid : b.id = "unused") :
    ∃ j, l.findIdx? (fun x => x.id == "unused") = some j := by
  cases hf : l.findIdx? (fun x => x.id == "unused") with
  | none =>
    exfalso
    have := List.findIdx?_eq_none_iff.mp hf b hb
    simp [hid] at this
  | some j => exact ⟨j, rfl⟩

/-! ### Size bookkeeping -/

theorem freeSize_append (xs ys : List Block) :
    freeSize (xs ++ ys) = freeSize xs + freeSize ys := by
  simp [freeSize, freeList, List.filter_append]

theorem freeSize_cons (b : Block) (l : List Block) :
    freeSize (b :: l) =
      (if b.id = "unused" then b.size else 0) + freeSize l := by
  by_cases hb : b.id = "unused" <;>
    simp [freeSize, freeList_cons, hb]

theorem allocSize_coalesce (l : List Block) :
    allocSize (coalesce l) = allocSize l := by
  unfold allocSize
  rw [coalesce_allocList]

theorem freeSize_coalesce (l : List Block) (lo hi : Int)
    (h : coversFrom lo l hi) : freeSize (coalesce l) = freeSize l := by
  have h1 := coversFrom_totalSize lo l hi h
  have h2 := coversFrom_totalSize lo _ hi (coalesce_covers l lo hi h)
  have h3 := freeSize_allocSize_total l
  have h4 := freeSize_allocSize_total (coalesce l)
  have h5 := allocSize_coalesce l
  omega

/-- Freeing the two pieces a fresh allocation carved out of hole `R` and
coalescing restores the original tiling: the pieces merge back into `R` and
everything else is already coalesced. -/
theorem coalesce_restore (MAX : Int) (l1 l2 : List Block) (R : Block) (s : Int)
    (hcov : coversFrom 0 (l1 ++ R :: l2) (MAX - 1))
    (hchain : List.Chain' notBothFree (l1 ++ R :: l2))
    (hfree : R.id = "unused") (hs : 0 < s) (hsz : s ≤ R.size) :
    coalesce (l1 ++ (newBlocksFor R "unused" s ++ l2)) = l1 ++ R :: l2 := by
  have hchain_l1 := (List.chain'_append.mp hchain).1
  have hchainR := (List.chain'_append.mp hchain).2.1
  have hjold := (List.chain'_append.mp hchain).2.2
  have hl1nf : ∀ x ∈ l1.getLast?, ¬x.id = "unused" := by
    intro x hx hxf
    exact hjold x hx R rfl ⟨hxf, hfree⟩
  rw [coalesce_append_chain l1 _ hchain_l1
    (fun x hx y hy c => hl1nf x hx c.1)]
  congr 1
  by_cases hlt : s < R.size
  · rw [newBlocksFor_split R "unused" s hlt]
    show coalesce ((⟨R.start, R.start + s - 1, "unused"⟩ : Block) ::
      (⟨R.start + s - 1 + 1, R.stop, "unused"⟩ : Block) :: l2) = R :: l2
    rw [coalesce_merge _ _ l2 rfl rfl]
    show coalesce ((⟨R.start, R.stop, "unused"⟩ : Block) :: l2) = R :: l2
    rw [block_eta_free R hfree]
    exact coalesce_noop _ hchainR
  · rw [newBlocksFor_exact R "unused" s hlt]
    have hP1 : (⟨R.start, R.start + s - 1, "unused"⟩ : Block) = R := by
      have hstop : R.start + s - 1 = R.stop := by
        unfold Block.size at hsz hlt
        omega
      rw [hstop]
      exact block_eta_free R hfree
    show coalesce ((⟨R.start, R.start + s - 1, "unused"⟩ : Block) :: l2) = R :: l2
    rw [hP1]
    exact coalesce_noop _ hchainR

/-- Whatever the policy, a successful allocation decomposes into a chosen
candidate `(i, R)` and the common splice-in mutation. -/
theorem allocate_ok_cases (m m' : Memory) (p : String) (s : Int) (pol : Policy)
    (hok : m.allocate p s pol = (m', .ok)) :
    ∃ i R, (i, R) ∈ m.getFreeBlocksForSizeWithIndex s ∧ p ∉ m.unique_ids ∧
      m' = ⟨sortByStart (m.memory.eraseIdx i ++ newBlocksFor R p s),
        insert p m.unique_ids⟩ := by
  cases pol with
  | firstFit =>
    have hok' : m.addMemoryFirstFit p s = (m', .ok) := hok
    rcases addMemoryFirstFit_spec m p s with ⟨i, R, hh, hp, heq⟩ | ⟨-, hfail⟩
    · rw [heq] at hok'
      refine ⟨i, R, head?_mem _ _ hh, hp, ?_⟩
      injection hok' with h1 h2
      exact h1.symm
    · rw [hok'] at hfail
      exact absurd rfl hfail
  | bestFit =>
    have hok' : m.addMemoryBestFit p s = (m', .ok) := hok
    rcases addMemoryBestFit_spec m p s with ⟨i, R, hh, hp, heq⟩ | ⟨-, hfail⟩
    · rw [heq] at hok'
      refine ⟨i, R, head?_sort_mem _ _ i R hh, hp, ?_⟩
      injection hok' with h1 h2
      exact h1.symm
    · rw [hok'] at hfail
      exact absurd rfl hfail
  | worstFit =>
    have hok' : m.addMemoryWorstFit p s = (m', .ok) := hok
    rcases addMemoryWorstFit_spec m p s with ⟨i, R, hh, hp, heq⟩ | ⟨-, hfail⟩
    · rw [heq] at hok'
      refine ⟨i, R, head?_sort_mem _ _ i R hh, hp, ?_⟩
      injection hok' with h1 h2
      exact h1.symm
    · rw [hok'] at hfail
      exact absurd rfl hfail

theorem alloc_release_roundtrip (MAX : Int) (m m' : Memory) (p : String)
    (s : Int) (pol : Policy) (hv : m.Valid MAX) (hs : 0 < s)
    (hok : m.allocate p s pol = (m', .ok)) :
    m'.release p = (m, true) := by
  obtain ⟨i, R, hcand, hp, hm'⟩ := allocate_ok_cases m m' p s pol hok
  obtain ⟨hget, hfree, hsz⟩ := mem_getFreeBlocks m s i R hcand
  have hsplit := memory_split_at m.memory i R hget
  have hlay := alloc_layout MAX m p s i R hv hs hcand
  have hm'mem : m'.memory =
      m.memory.take i ++ (newBlocksFor R p s ++ m.memory.drop (i + 1)) := by
    rw [hm']
    exact hlay
  have hm'ids : m'.unique_ids = insert p m.unique_ids := by rw [hm']
  have hcov : coversFrom 0 (m.memory.take i ++ R :: m.memory.drop (i + 1))
      (MAX - 1) := by
    rw [← hsplit]
    exact hv.1
  have hchain : List.Chain' notBothFree
      (m.memory.take i ++ R :: m.memory.drop (i + 1)) := by
    rw [← hsplit]
    exact hv.2.1
  have hpmem : p ∈ m'.unique_ids := by
    rw [hm'ids]
    exact Finset.mem_insert_self p _
  have hnbs_u : newBlocksFor R "unused" s =
      (⟨R.start, R.start + s - 1, "unused"⟩ : Block) ::
        (if s < R.size then [(⟨R.start + s - 1 + 1, R.stop, "unused"⟩ : Block)]
          else []) := by
    by_cases hlt : s < R.size
    · rw [newBlocksFor_split R "unused" s hlt, if_pos hlt]
    · rw [newBlocksFor_exact R "unused" s hlt, if_neg hlt]
  have hnbs_p : newBlocksFor R p s =
      (⟨R.start, R.start + s - 1, p⟩ : Block) ::
        (if s < R.size then [(⟨R.start + s - 1 + 1, R.stop, "unused"⟩ : Block)]
          else []) := by
    by_cases hlt : s < R.size
    · rw [newBlocksFor_split R p s hlt, if_pos hlt]
    · rw [newBlocksFor_exact R p s hlt, if_neg hlt]
  have hflip : m'.memory.modify (fun b => { b with id := "unused" })
      ((m'.memory.findIdx? (fun b => b.id == p)).getD 0) =
      m.memory.take i ++ (newBlocksFor R "unused" s ++ m.memory.drop (i + 1)) := by
    by_cases hpu : p = "unused"
    · subst hpu
      have hbmem : (⟨R.start, R.start + s - 1, "unused"⟩ : Block) ∈ m'.memory := by
        rw [hm'mem, hnbs_p]
        exact List.mem_append_right _ (List.mem_cons_self _ _)
      obtain ⟨j, hj⟩ := findIdx?_isSome_of_mem m'.memory _ hbmem rfl
      rw [hj]
      simp only [Option.getD_some]
      rw [modify_found_unused m'.memory j hj, hm'mem]
    · have hl1 : ∀ x ∈ m.memory.take i, x.id ≠ p := by
        intro x hx hxp
        have hxm : x ∈ m.memory := by
          rw [hsplit]
          exact List.mem_append_left _ hx
        have hpo : p ∈ owners m.memory := (mem_owners_iff _ _).mpr ⟨x, hxm, hxp, hpu⟩
        exact hp (by rw [hv.2.2.2]; exact List.mem_toFinset.mpr hpo)
      have hfind : m'.memory.findIdx? (fun b => b.id == p) =
          some (m.memory.take i).length := by
        rw [hm'mem, hnbs_p]
        exact findIdx?_append_first _ _ _ p hl1 rfl
      rw [hfind]
      simp only [Option.getD_some]
      rw [hm'mem, hnbs_p]
      rw [show (m.memory.take i ++
          ((⟨R.start, R.start + s - 1, p⟩ : Block) ::
            (if s < R.size then
              [(⟨R.start + s - 1 + 1, R.stop, "unused"⟩ : Block)] else []) ++
            m.memory.drop (i + 1))) =
          m.memory.take i ++ (⟨R.start, R.start + s - 1, p⟩ : Block) ::
            ((if s < R.size then
              [(⟨R.start + s - 1 + 1, R.stop, "unused"⟩ : Block)] else []) ++
            m.memory.drop (i + 1)) from rfl]
      rw [modify_middle, hnbs_u]
      rfl
  unfold Memory.release
  rw [if_pos hpmem]
  simp only [hflip]
  have hcovflip : coversFrom 0
      (m.memory.take i ++ (newBlocksFor R "unused" s ++ m.memory.drop (i + 1)))
      (MAX - 1) :=
    coversFrom_replace _ _ _ R 0 (MAX - 1) hcov
      (newBlocksFor_covers R "unused" s hs hsz)
  rw [combine_adjacent_holes_eq_coalesce _ 0 (MAX - 1) hcovflip]
  rw [coalesce_restore MAX _ _ R s hcov hchain hfree hs hsz]
  rw [← hsplit, hm'ids, Finset.erase_insert hp]

/-! ### Remaining bookkeeping lemmas -/

theorem freeList_append (xs ys : List Block) :
    freeList (xs ++ ys) = freeList xs ++ freeList ys := by
  simp [freeList, List.filter_append]

theorem allocList_append (xs ys : List Block) :
    allocList (xs ++ ys) = allocList xs ++ allocList ys := by
  simp [allocList, List.filter_append]

theorem allocSize_append (xs ys : List Block) :
    allocSize (xs ++ ys) = allocSize xs + allocSize ys := by
  rw [allocSize, allocList_append, List.map_append, List.sum_append]
  rfl

theorem allocList_not_unused (l : List Block) :
    ∀ b ∈ allocList l, ¬b.id = "unused" := by
  intro b hb
  have := (List.mem_filter.mp hb).2
  simp at this
  exact this

theorem relocate_not_unused (l : List Block) (st : Int)
    (h : ∀ b ∈ l, ¬b.id = "unused") :
    ∀ b ∈ relocate st l, ¬b.id = "unused" := by
  intro b hb
  have hmm : b.id ∈ (relocate st l).map Block.id := List.mem_map.mpr ⟨b, hb, rfl⟩
  rw [relocate_ids] at hmm
  obtain ⟨a, ha, haid⟩ := List.mem_map.mp hmm
  rw [← haid]
  exact h a ha

theorem relocate_sizes (l : List Block) (st : Int) :
    (relocate st l).map Block.size = l.map Block.size := by
  have hmap := congrArg (List.map Prod.snd) (relocate_pairs l st)
  simpa [List.map_map, Function.comp] using hmap

set_option maxRecDepth 100000

/-! ### The claims -/

/-- C1 (amended: the process identifier must not be the reserved string
`"unused"`): for every command sequence with positive sizes and
non-sentinel process ids, after every operation the partition is sorted by
ascending start, gapless, non-overlapping, spans exactly `[0, MAX-1]`
(all expressed by `coversFrom`), no two allocated blocks share an owner, and
no two adjacent blocks are free.  Instantiating `ops` at each prefix of a
sequence gives the invariant after each operation. -/
theorem C1_invariants_after_run (MAX : Int) (ops : List Op) (hMAX : 0 < MAX)
    (hops : ∀ op ∈ ops, opOK op) :
    coversFrom 0 (Memory.run MAX ops).memory (MAX - 1) ∧
    ((Memory.run MAX ops).memory).Pairwise startLt ∧
    List.Chain' notBothFree ((Memory.run MAX ops).memory) ∧
    (owners ((Memory.run MAX ops).memory)).Nodup := by
  have hv := valid_run MAX ops hMAX hops
  exact ⟨hv.1, coversFrom_pairwise 0 _ (MAX - 1) hv.1, hv.2.1, hv.2.2.1⟩

/-- C1 counterexample: the claim as stated quantifies over every process id;
requesting 5 cells for the process named `"unused"` (a value of the stated
input type) in a fresh 10-cell space leaves two adjacent Free blocks, so the
"no two adjacent Ranges are both Free" invariant fails after that operation. -/
theorem C1_counterexample :
    (0 : Int) < 10 ∧ (0 : Int) < 5 ∧
    ¬List.Chain' notBothFree
      ((Memory.run 10 [Op.alloc "unused" 5 Policy.firstFit]).memory) := by
  decide

theorem C1_invariants_after_run_witness :
    coversFrom 0 (Memory.run 10000 [Op.alloc "P1" 500 Policy.firstFit,
      Op.alloc "P2" 400 Policy.bestFit, Op.rel "P1",
      Op.alloc "P3" 100 Policy.worstFit, Op.compact]).memory (10000 - 1) ∧
    ((Memory.run 10000 [Op.alloc "P1" 500 Policy.firstFit,
      Op.alloc "P2" 400 Policy.bestFit, Op.rel "P1",
      Op.alloc "P3" 100 Policy.worstFit, Op.compact]).memory).Pairwise startLt ∧
    List.Chain' notBothFree ((Memory.run 10000 [Op.alloc "P1" 500 Policy.firstFit,
      Op.alloc "P2" 400 Policy.bestFit, Op.rel "P1",
      Op.alloc "P3" 100 Policy.worstFit, Op.compact]).memory) ∧
    (owners ((Memory.run 10000 [Op.alloc "P1" 500 Policy.firstFit,
      Op.alloc "P2" 400 Policy.bestFit, Op.rel "P1",
      Op.alloc "P3" 100 Policy.worstFit, Op.compact]).memory)).Nodup :=
  C1_invariants_after_run 10000 [Op.alloc "P1" 500 Policy.firstFit,
    Op.alloc "P2" 400 Policy.bestFit, Op.rel "P1",
    Op.alloc "P3" 100 Policy.worstFit, Op.compact] (by decide) (by decide)

/-- C2: on a valid partition, `compactAllHoles` is the identity when fewer
than two holes exist; otherwise it relays out the allocated blocks from
address 0 in their original order, each keeping its owner and size, followed
by exactly one trailing hole, and the whole result tiles `[0, MAX-1]` (so
the hole ends at `MAX - 1`).  In every case the total allocated size and the
total free size are unchanged, and `compactAllHoles` is a total function
(it never fails). -/
theorem C2_compact (MAX : Int) (m : Memory) (hv : m.Valid MAX) :
    ((freeList m.memory).length < 2 → m.compactAllHoles = m) ∧
    (2 ≤ (freeList m.memory).length →
      ((m.compactAllHoles).memory.map (fun b => (b.id, b.size)) =
        (allocList m.memory).map (fun b => (b.id, b.size)) ++
          [("unused", freeSize m.memory)] ∧
      coversFrom 0 (m.compactAllHoles).memory (MAX - 1) ∧
      (freeList (m.compactAllHoles).memory).length = 1)) ∧
    allocSize (m.compactAllHoles).memory = allocSize m.memory ∧
    freeSize (m.compactAllHoles).memory = freeSize m.memory := by
  have hvc := valid_compactAllHoles MAX m hv
  by_cases h : (freeList m.memory).length < 2
  · rw [compactAllHoles_noop m h]
    exact ⟨fun _ => rfl, fun h2 => absurd h (by omega), rfl, rfl⟩
  · have hcv : coversFrom 0 (m.compactAllHoles).memory (MAX - 1) := hvc.1
    have hRids := relocate_not_unused (allocList m.memory) 0
      (allocList_not_unused m.memory)
    have hfnil : freeList (relocate 0 (allocList m.memory)) = [] := by
      rw [freeList]
      refine List.filter_eq_nil_iff.mpr ?_
      intro b hb
      simp
      exact hRids b hb
    have hanil : allocSize
        [(⟨allocSize m.memory, allocSize m.memory + freeSize m.memory - 1,
          "unused"⟩ : Block)] = 0 := by
      simp [allocSize, allocList, List.filter]
    have hholesz : (⟨allocSize m.memory,
        allocSize m.memory + freeSize m.memory - 1, "unused"⟩ : Block).size =
        freeSize m.memory := by
      unfold Block.size
      show allocSize m.memory + freeSize m.memory - 1 - allocSize m.memory + 1 = _
      omega
    have hall : allocList (relocate 0 (allocList m.memory)) =
        relocate 0 (allocList m.memory) := by
      rw [allocList]
      refine List.filter_eq_self.mpr ?_
      intro b hb
      simp
      exact hRids b hb
    have hrelAS : allocSize (relocate 0 (allocList m.memory)) =
        allocSize m.memory := by
      rw [allocSize, hall, relocate_sizes]
      rfl
    have hrelFS : freeSize (relocate 0 (allocList m.memory)) = 0 := by
      rw [freeSize, hfnil]
      rfl
    have hfs1 : freeSize
        [(⟨allocSize m.memory, allocSize m.memory + freeSize m.memory - 1,
          "unused"⟩ : Block)] = freeSize m.memory := by
      rw [freeSize_cons, if_pos rfl, hholesz]
      show freeSize m.memory + freeSize [] = freeSize m.memory
      simp [freeSize, freeList]
    refine ⟨fun hlt => absurd hlt h, fun _ => ⟨?_, hcv, ?_⟩, ?_, ?_⟩
    · rw [compactAllHoles_eq m h]
      show (relocate 0 (allocList m.memory) ++ _).map _ = _
      rw [List.map_append, relocate_pairs]
      congr 1
      simp [hholesz]
    · rw [compactAllHoles_eq m h]
      show (freeList (relocate 0 (allocList m.memory) ++ _)).length = 1
      rw [freeList_append, hfnil]
      simp [freeList, List.filter]
    · rw [compactAllHoles_eq m h]
      show allocSize (relocate 0 (allocList m.memory) ++ _) = _
      rw [allocSize_append, hrelAS, hanil]
      omega
    · rw [compactAllHoles_eq m h]
      show freeSize (relocate 0 (allocList m.memory) ++ _) = _
      rw [freeSize_append, hrelFS, hfs1]
      omega

theorem C2_compact_witness :
    ((freeList (⟨[⟨0, 4, "unused"⟩, ⟨5, 9, "A"⟩, ⟨10, 19, "unused"⟩],
        {"A"}⟩ : Memory).memory).length < 2 →
      (⟨[⟨0, 4, "unused"⟩, ⟨5, 9, "A"⟩, ⟨10, 19, "unused"⟩],
        {"A"}⟩ : Memory).compactAllHoles =
        ⟨[⟨0, 4, "unused"⟩, ⟨5, 9, "A"⟩, ⟨10, 19, "unused"⟩], {"A"}⟩) ∧
    (2 ≤ (freeList (⟨[⟨0, 4, "unused"⟩, ⟨5, 9, "A"⟩, ⟨10, 19, "unused"⟩],
        {"A"}⟩ : Memory).memory).length →
      (((⟨[⟨0, 4, "unused"⟩, ⟨5, 9, "A"⟩, ⟨10, 19, "unused"⟩],
        {"A"}⟩ : Memory).compactAllHoles).memory.map (fun b => (b.id, b.size)) =
        (allocList (⟨[⟨0, 4, "unused"⟩, ⟨5, 9, "A"⟩, ⟨10, 19, "unused"⟩],
          {"A"}⟩ : Memory).memory).map (fun b => (b.id, b.size)) ++
          [("unused", freeSize (⟨[⟨0, 4, "unused"⟩, ⟨5, 9, "A"⟩,
            ⟨10, 19, "unused"⟩], {"A"}⟩ : Memory).memory)] ∧
      coversFrom 0 ((⟨[⟨0, 4, "unused"⟩, ⟨5, 9, "A"⟩, ⟨10, 19, "unused"⟩],
        {"A"}⟩ : Memory).compactAllHoles).memory (20 - 1) ∧
      (freeList ((⟨[⟨0, 4, "unused"⟩, ⟨5, 9, "A"⟩, ⟨10, 19, "unused"⟩],
        {"A"}⟩ : Memory).compactAllHoles).memory).length = 1)) ∧
    allocSize ((⟨[⟨0, 4, "unused"⟩, ⟨5, 9, "A"⟩, ⟨10, 19, "unused"⟩],
      {"A"}⟩ : Memory).compactAllHoles).memory =
      allocSize (⟨[⟨0, 4, "unused"⟩, ⟨5, 9, "A"⟩, ⟨10, 19, "unused"⟩],
        {"A"}⟩ : Memory).memory ∧
    freeSize ((⟨[⟨0, 4, "unused"⟩, ⟨5, 9, "A"⟩, ⟨10, 19, "unused"⟩],
      {"A"}⟩ : Memory).compactAllHoles).memory =
      freeSize (⟨[⟨0, 4, "unused"⟩, ⟨5, 9, "A"⟩, ⟨10, 19, "unused"⟩],
        {"A"}⟩ : Memory).memory :=
  C2_compact 20 ⟨[⟨0, 4, "unused"⟩, ⟨5, 9, "A"⟩, ⟨10, 19, "unused"⟩], {"A"}⟩
    (by decide)

/-- C3 (amended): releasing an allocated process does not keep the total
free size constant — it grows by exactly the size of the released block
(coalescing itself is what preserves the total).  Formally: after
`release p` the free size equals the free size before plus the size of the
block owned by `p`. -/
theorem C3_release_free_size (MAX : Int) (m : Memory) (p : String)
    (hv : m.Valid MAX) (hp : p ∈ m.unique_ids) :
    ∃ B ∈ m.memory, B.id = p ∧
      freeSize ((m.release p).1.memory) = freeSize m.memory + B.size := by
  obtain ⟨l1, B, l2, hsplit, hB, hpu, hl1, heq⟩ := release_success_eq MAX m p hv hp
  refine ⟨B, by rw [hsplit]; exact List.mem_append_right _ (List.mem_cons_self _ _),
    hB, ?_⟩
  rw [heq]
  show freeSize (coalesce (l1 ++ (⟨B.start, B.stop, "unused"⟩ : Block) :: l2)) = _
  have hcov : coversFrom 0 (l1 ++ B :: l2) (MAX - 1) := by
    rw [← hsplit]
    exact hv.1
  obtain ⟨mid, hm1, hm2⟩ := coversFrom_append_split 0 l1 (B :: l2) (MAX - 1) hcov
  obtain ⟨hBs, hBpos, hl2c⟩ := hm2
  have hcovflip : coversFrom 0
      (l1 ++ (⟨B.start, B.stop, "unused"⟩ : Block) :: l2) (MAX - 1) :=
    coversFrom_append 0 mid l1 _ (MAX - 1) hm1 ⟨hBs, hBpos, hl2c⟩
  rw [freeSize_coalesce _ 0 (MAX - 1) hcovflip]
  rw [freeSize_append, freeSize_cons, if_pos rfl]
  conv_rhs =>
    rw [hsplit, freeSize_append, freeSize_cons,
      if_neg (show ¬B.id = "unused" from by rw [hB]; exact hpu)]
  have hBsz : (⟨B.start, B.stop, "unused"⟩ : Block).size = B.size := rfl
  rw [hBsz]
  omega

/-- C3 counterexample: in a 10-cell space with `P1` occupying `[0,4]`, the
free size before `release("P1")` is 5 and after it is 10 — release does not
leave the total free size unchanged. -/
theorem C3_counterexample :
    (Memory.run 10 [Op.alloc "P1" 5 Policy.firstFit]).Valid 10 ∧
    "P1" ∈ (Memory.run 10 [Op.alloc "P1" 5 Policy.firstFit]).unique_ids ∧
    freeSize (((Memory.run 10 [Op.alloc "P1" 5 Policy.firstFit]).release
        "P1").1.memory) ≠
      freeSize ((Memory.run 10 [Op.alloc "P1" 5 Policy.firstFit]).memory) := by
  refine ⟨by decide, by decide, ?_⟩
  have hcomb : combine_adjacent_holes
      [(⟨0, 4, "unused"⟩ : Block), (⟨5, 9, "unused"⟩ : Block)] =
      [(⟨0, 9, "unused"⟩ : Block)] := by
    rw [combine_adjacent_holes_eq_coalesce _ 0 9 (by decide)]
    rw [coalesce_merge _ _ _ rfl rfl]
    rw [coalesce]
  have hrel : ((Memory.run 10 [Op.alloc "P1" 5 Policy.firstFit]).release "P1") =
      (⟨combine_adjacent_holes
          [(⟨0, 4, "unused"⟩ : Block), (⟨5, 9, "unused"⟩ : Block)],
        ((insert "P1" ∅ : Finset String)).erase "P1"⟩, true) := rfl
  rw [hrel, hcomb]
  decide

theorem C3_release_free_size_witness :
    ∃ B ∈ (⟨[⟨0, 4, "P1"⟩, ⟨5, 9, "unused"⟩], {"P1"}⟩ : Memory).memory,
      B.id = "P1" ∧
      freeSize (((⟨[⟨0, 4, "P1"⟩, ⟨5, 9, "unused"⟩],
          {"P1"}⟩ : Memory).release "P1").1.memory) =
        freeSize (⟨[⟨0, 4, "P1"⟩, ⟨5, 9, "unused"⟩],
          {"P1"}⟩ : Memory).memory + B.size :=
  C3_release_free_size 10 ⟨[⟨0, 4, "P1"⟩, ⟨5, 9, "unused"⟩], {"P1"}⟩ "P1"
    (by decide) (by decide)

/-- C4: on a valid partition with at least one sufficient hole and a fresh
process id, best fit selects — as the head of the stable sort of the
`(index, block)` candidates by ascending size — a sufficient free block of
minimal size, breaking ties among equal sizes by lowest start, and performs
the usual splice-in mutation with it. -/
theorem C4_bestFit_selection (MAX : Int) (m : Memory) (p : String) (s : Int)
    (hv : m.Valid MAX) (hp : p ∉ m.unique_ids)
    (hne : m.getFreeBlocksForSizeWithIndex s ≠ []) :
    ∃ i R, ((m.getFreeBlocksForSizeWithIndex s).insertionSort
        (fun a b => a.2.size ≤ b.2.size)).head? = some (i, R) ∧
      (i, R) ∈ m.getFreeBlocksForSizeWithIndex s ∧
      m.addMemoryBestFit p s =
        (⟨sortByStart (m.memory.eraseIdx i ++ newBlocksFor R p s),
          insert p m.unique_ids⟩, .ok) ∧
      (∀ j S, (j, S) ∈ m.getFreeBlocksForSizeWithIndex s → R.size ≤ S.size) ∧
      (∀ j S, (j, S) ∈ m.getFreeBlocksForSizeWithIndex s → S.size = R.size →
        R.start ≤ S.start) := by
  obtain ⟨i, R, hh⟩ := sort_head_exists _ (fun a b => a.2.size ≤ b.2.size) hne
  have hpw := getFree_pairwise m s (coversFrom_pairwise 0 _ (MAX - 1) hv.1)
  have hnd := nodup_of_pairwise_start _ hpw
  have hmem : (i, R) ∈ m.getFreeBlocksForSizeWithIndex s :=
    head?_sort_mem _ _ i R hh
  refine ⟨i, R, hh, hmem, addMemoryBestFit_ok_eq m p s i R hp hh, ?_, ?_⟩
  · intro j S hjS
    exact sort_head_le _ _ (i, R) hh (j, S) hjS
  · intro j S hjS heqsz
    by_contra hlt
    push_neg at hlt
    have hne2 : (j, S) ≠ (i, R) := by
      intro hc
      injection hc with h1 h2
      rw [h2] at hlt
      exact lt_irrefl _ hlt
    have hsub : [(j, S), (i, R)].Sublist (m.getFreeBlocksForSizeWithIndex s) :=
      sublist_pair_of_pairwise _ hpw (j, S) (i, R) hjS hmem hlt
    exact sort_head_stable _ _ hnd (i, R) (j, S) hh hsub (le_of_eq heqsz) hne2

theorem C4_bestFit_selection_witness :
    ∃ i R, (((Memory.init 10).getFreeBlocksForSizeWithIndex 3).insertionSort
        (fun a b => a.2.size ≤ b.2.size)).head? = some (i, R) ∧
      (i, R) ∈ (Memory.init 10).getFreeBlocksForSizeWithIndex 3 ∧
      (Memory.init 10).addMemoryBestFit "P" 3 =
        (⟨sortByStart ((Memory.init 10).memory.eraseIdx i ++
          newBlocksFor R "P" 3), insert "P" (Memory.init 10).unique_ids⟩, .ok) ∧
      (∀ j S, (j, S) ∈ (Memory.init 10).getFreeBlocksForSizeWithIndex 3 →
        R.size ≤ S.size) ∧
      (∀ j S, (j, S) ∈ (Memory.init 10).getFreeBlocksForSizeWithIndex 3 →
        S.size = R.size → R.start ≤ S.start) :=
  C4_bestFit_selection 10 (Memory.init 10) "P" 3 (by decide) (by decide)
    (by decide)

/-- C5: on a valid partition with at least one sufficient hole and a fresh
process id, worst fit selects — as the head of the stable sort of the
candidates by descending size — a sufficient free block of maximal size,
breaking ties among equal sizes by lowest start, and performs the usual
splice-in mutation with it. -/
theorem C5_worstFit_selection (MAX : Int) (m : Memory) (p : String) (s : Int)
    (hv : m.Valid MAX) (hp : p ∉ m.unique_ids)
    (hne : m.getFreeBlocksForSizeWithIndex s ≠ []) :
    ∃ i R, ((m.getFreeBlocksForSizeWithIndex s).insertionSort
        (fun a b => b.2.size ≤ a.2.size)).head? = some (i, R) ∧
      (i, R) ∈ m.getFreeBlocksForSizeWithIndex s ∧
      m.addMemoryWorstFit p s =
        (⟨sortByStart (m.memory.eraseIdx i ++ newBlocksFor R p s),
          insert p m.unique_ids⟩, .ok) ∧
      (∀ j S, (j, S) ∈ m.getFreeBlocksForSizeWithIndex s → S.size ≤ R.size) ∧
      (∀ j S, (j, S) ∈ m.getFreeBlocksForSizeWithIndex s → S.size = R.size →
        R.start ≤ S.start) := by
  obtain ⟨i, R, hh⟩ := sort_head_exists _ (fun a b => b.2.size ≤ a.2.size) hne
  have hpw := getFree_pairwise m s (coversFrom_pairwise 0 _ (MAX - 1) hv.1)
  have hnd := nodup_of_pairwise_start _ hpw
  have hmem : (i, R) ∈ m.getFreeBlocksForSizeWithIndex s :=
    head?_sort_mem _ _ i R hh
  refine ⟨i, R, hh, hmem, addMemoryWorstFit_ok_eq m p s i R hp hh, ?_, ?_⟩
  · intro j S hjS
    exact sort_head_le _ _ (i, R) hh (j, S) hjS
  · intro j S hjS heqsz
    by_contra hlt
    push_neg at hlt
    have hne2 : (j, S) ≠ (i, R) := by
      intro hc
      injection hc with h1 h2
      rw [h2] at hlt
      exact lt_irrefl _ hlt
    have hsub : [(j, S), (i, R)].Sublist (m.getFreeBlocksForSizeWithIndex s) :=
      sublist_pair_of_pairwise _ hpw (j, S) (i, R) hjS hmem hlt
    exact sort_head_stable _ _ hnd (i, R) (j, S) hh hsub
      (le_of_eq heqsz.symm) hne2

theorem C5_worstFit_selection_witness :
    ∃ i R, (((Memory.init 10).getFreeBlocksForSizeWithIndex 3).insertionSort
        (fun a b => b.2.size ≤ a.2.size)).head? = some (i, R) ∧
      (i, R) ∈ (Memory.init 10).getFreeBlocksForSizeWithIndex 3 ∧
      (Memory.init 10).addMemoryWorstFit "P" 3 =
        (⟨sortByStart ((Memory.init 10).memory.eraseIdx i ++
          newBlocksFor R "P" 3), insert "P" (Memory.init 10).unique_ids⟩, .ok) ∧
      (∀ j S, (j, S) ∈ (Memory.init 10).getFreeBlocksForSizeWithIndex 3 →
        S.size ≤ R.size) ∧
      (∀ j S, (j, S) ∈ (Memory.init 10).getFreeBlocksForSizeWithIndex 3 →
        S.size = R.size → R.start ≤ S.start) :=
  C5_worstFit_selection 10 (Memory.init 10) "P" 3 (by decide) (by decide)
    (by decide)

/-- C6: whenever an allocation succeeds under any policy, the chosen free
block `R` (at position `i`) is replaced in place by an allocated block
`[R.start, R.start+size-1]` owned by the process, followed by a leftover
free block `[R.start+size, R.stop]` exactly when `size < R.size`; all the
blocks before and after `R` are unchanged. -/
theorem C6_allocation_mutation (MAX : Int) (m m' : Memory) (p : String)
    (s : Int) (pol : Policy) (hv : m.Valid MAX) (hs : 0 < s)
    (hok : m.allocate p s pol = (m', .ok)) :
    ∃ i R, (i, R) ∈ m.getFreeBlocksForSizeWithIndex s ∧ R.id = "unused" ∧
      s ≤ R.size ∧
      m.memory = m.memory.take i ++ R :: m.memory.drop (i + 1) ∧
      m'.memory = m.memory.take i ++
        ((⟨R.start, R.start + s - 1, p⟩ : Block) ::
          ((if s < R.size then [(⟨R.start + s, R.stop, "unused"⟩ : Block)]
            else []) ++ m.memory.drop (i + 1))) := by
  obtain ⟨i, R, hcand, hp, hm'⟩ := allocate_ok_cases m m' p s pol hok
  obtain ⟨hget, hfree, hsz⟩ := mem_getFreeBlocks m s i R hcand
  refine ⟨i, R, hcand, hfree, hsz, memory_split_at m.memory i R hget, ?_⟩
  rw [hm']
  show sortByStart (m.memory.eraseIdx i ++ newBlocksFor R p s) = _
  rw [alloc_layout MAX m p s i R hv hs hcand]
  by_cases hlt : s < R.size
  · rw [newBlocksFor_split R p s hlt, if_pos hlt]
    have hb2 : (⟨R.start + s - 1 + 1, R.stop, "unused"⟩ : Block) =
        ⟨R.start + s, R.stop, "unused"⟩ := by
      have h1 : R.start + s - 1 + 1 = R.start + s := by omega
      rw [h1]
    rw [hb2]
    rfl
  · rw [newBlocksFor_exact R p s hlt, if_neg hlt]
    rfl

theorem C6_allocation_mutation_witness :
    ∃ i R, (i, R) ∈ (Memory.init 10).getFreeBlocksForSizeWithIndex 4 ∧
      R.id = "unused" ∧ (4 : Int) ≤ R.size ∧
      (Memory.init 10).memory = (Memory.init 10).memory.take i ++
        R :: (Memory.init 10).memory.drop (i + 1) ∧
      (⟨[⟨0, 3, "P1"⟩, ⟨4, 9, "unused"⟩],
        insert "P1" ∅⟩ : Memory).memory = (Memory.init 10).memory.take i ++
        ((⟨R.start, R.start + 4 - 1, "P1"⟩ : Block) ::
          ((if (4 : Int) < R.size then
            [(⟨R.start + 4, R.stop, "unused"⟩ : Block)]
            else []) ++ (Memory.init 10).memory.drop (i + 1))) :=
  C6_allocation_mutation 10 (Memory.init 10)
    ⟨[⟨0, 3, "P1"⟩, ⟨4, 9, "unused"⟩], insert "P1" ∅⟩ "P1" 4 Policy.firstFit
    (by decide) (by decide) (by decide)

/-- C7: releasing an owned process replaces its block by a free block with
identical bounds and then runs the one-pass coalescing that replaces every
maximal run of adjacent free blocks by a single spanning free block (the
function `coalesce`); afterwards no two adjacent blocks are both free, and
the operation reports success. -/
theorem C7_release_coalesces (MAX : Int) (m : Memory) (p : String)
    (hv : m.Valid MAX) (hp : p ∈ m.unique_ids) :
    ∃ l1 B l2, m.memory = l1 ++ B :: l2 ∧ B.id = p ∧
      (m.release p).1.memory =
        coalesce (l1 ++ (⟨B.start, B.stop, "unused"⟩ : Block) :: l2) ∧
      List.Chain' notBothFree ((m.release p).1.memory) ∧
      (m.release p).2 = true := by
  obtain ⟨l1, B, l2, hsplit, hB, hpu, hl1, heq⟩ := release_success_eq MAX m p hv hp
  refine ⟨l1, B, l2, hsplit, hB, ?_, ?_, ?_⟩
  · rw [heq]
  · rw [heq]
    exact coalesce_chain' _
  · rw [heq]

theorem C7_release_coalesces_witness :
    ∃ l1 B l2, (⟨[⟨0, 4, "P1"⟩, ⟨5, 9, "unused"⟩],
        {"P1"}⟩ : Memory).memory = l1 ++ B :: l2 ∧ B.id = "P1" ∧
      ((⟨[⟨0, 4, "P1"⟩, ⟨5, 9, "unused"⟩],
        {"P1"}⟩ : Memory).release "P1").1.memory =
        coalesce (l1 ++ (⟨B.start, B.stop, "unused"⟩ : Block) :: l2) ∧
      List.Chain' notBothFree (((⟨[⟨0, 4, "P1"⟩, ⟨5, 9, "unused"⟩],
        {"P1"}⟩ : Memory).release "P1").1.memory) ∧
      ((⟨[⟨0, 4, "P1"⟩, ⟨5, 9, "unused"⟩],
        {"P1"}⟩ : Memory).release "P1").2 = true :=
  C7_release_coalesces 10 ⟨[⟨0, 4, "P1"⟩, ⟨5, 9, "unused"⟩], {"P1"}⟩ "P1"
    (by decide) (by decide)

/-- C8: every failing operation — allocation rejected for a duplicate
process or insufficient memory, release rejected for an unknown process —
returns the state completely unchanged (both the block list and the owner
set). -/
theorem C8_failed_ops_noop :
    (∀ (m : Memory) (p : String) (s : Int) (pol : Policy),
      (m.allocate p s pol).2 ≠ .ok → (m.allocate p s pol).1 = m) ∧
    (∀ (m : Memory) (p : String),
      (m.release p).2 = false → (m.release p).1 = m) := by
  constructor
  · intro m p s pol hne
    cases pol with
    | firstFit =>
      rcases addMemoryFirstFit_spec m p s with ⟨i, R, hh, hp, heq⟩ | ⟨h1, -⟩
      · exact absurd (show (m.addMemoryFirstFit p s).2 = .ok from by rw [heq]) hne
      · exact h1
    | bestFit =>
      rcases addMemoryBestFit_spec m p s with ⟨i, R, hh, hp, heq⟩ | ⟨h1, -⟩
      · exact absurd (show (m.addMemoryBestFit p s).2 = .ok from by rw [heq]) hne
      · exact h1
    | worstFit =>
      rcases addMemoryWorstFit_spec m p s with ⟨i, R, hh, hp, heq⟩ | ⟨h1, -⟩
      · exact absurd (show (m.addMemoryWorstFit p s).2 = .ok from by rw [heq]) hne
      · exact h1
  · intro m p hfalse
    by_cases hp : p ∈ m.unique_ids
    · exfalso
      have htrue : (m.release p).2 = true := by
        unfold Memory.release
        rw [if_pos hp]
      rw [htrue] at hfalse
      cases hfalse
    · rw [release_fail_eq m p hp]

theorem C8_failed_ops_noop_witness :
    ((Memory.init 10).allocate "P" 20 Policy.firstFit).1 = Memory.init 10 ∧
    ((Memory.init 10).release "Q").1 = Memory.init 10 :=
  ⟨C8_failed_ops_noop.1 (Memory.init 10) "P" 20 Policy.firstFit (by decide),
   C8_failed_ops_noop.2 (Memory.init 10) "Q" (by decide)⟩

/-- C9: on a valid partition, a successful allocation under any policy
followed immediately by a release of the same process restores the state
exactly — the same block boundaries and owners, and the same owner set. -/
theorem C9_allocate_then_release (MAX : Int) (m m' : Memory) (p : String)
    (s : Int) (pol : Policy) (hv : m.Valid MAX) (hs : 0 < s)
    (hok : m.allocate p s pol = (m', .ok)) :
    m'.release p = (m, true) :=
  alloc_release_roundtrip MAX m m' p s pol hv hs hok

theorem C9_allocate_then_release_witness :
    (⟨[⟨0, 2, "P1"⟩, ⟨3, 9, "unused"⟩],
      insert "P1" ∅⟩ : Memory).release "P1" = (Memory.init 10, true) :=
  C9_allocate_then_release 10 (Memory.init 10)
    ⟨[⟨0, 2, "P1"⟩, ⟨3, 9, "unused"⟩], insert "P1" ∅⟩ "P1" 3 Policy.firstFit
    (by decide) (by decide) (by decide)

/-- C10 (amended: the process identifier must not be the reserved string
`"unused"`): after every command sequence, `unique_ids` equals exactly the
set of owners of the allocated blocks, so the duplicate-process and
process-not-found checks, which consult only this set, agree with the
partition contents. -/
theorem C10_ids_match_owners (MAX : Int) (ops : List Op) (hMAX : 0 < MAX)
    (hops : ∀ op ∈ ops, opOK op) :
    (Memory.run MAX ops).unique_ids =
      (owners (Memory.run MAX ops).memory).toFinset :=
  (valid_run MAX ops hMAX hops).2.2.2

/-- C10 counterexample: allocating a process literally named `"unused"`
puts `"unused"` into `unique_ids` while the partition has no allocated
block at all, so the set and the owners disagree. -/
theorem C10_counterexample :
    (Memory.run 10 [Op.alloc "unused" 5 Policy.firstFit]).unique_ids ≠
      (owners (Memory.run 10
        [Op.alloc "unused" 5 Policy.firstFit]).memory).toFinset := by
  decide

theorem C10_ids_match_owners_witness :
    (Memory.run 100 [Op.alloc "A" 30 Policy.firstFit,
      Op.alloc "B" 20 Policy.bestFit, Op.rel "A", Op.compact]).unique_ids =
      (owners (Memory.run 100 [Op.alloc "A" 30 Policy.firstFit,
        Op.alloc "B" 20 Policy.bestFit, Op.rel "A", Op.compact]).memory).toFinset :=
  C10_ids_match_owners 100 [Op.alloc "A" 30 Policy.firstFit,
    Op.alloc "B" 20 Policy.bestFit, Op.rel "A", Op.compact]
    (by decide) (by decide)
